import Mathlib

/-!
ActiveDataPartSet: a shallow embedding of
`dbms/src/Storages/MergeTree/ActiveDataPartSet.cpp`.

The registry `part_info_to_name` is a `std::map<MergeTreePartInfo, String>`; it is
embedded as the list of its entries in iteration order.  An iterator into the
map is embedded as the pair (entries before the iterator, entries from the
iterator on).  Functions assume, but do not require, that the list is strictly
ascending in the key order; `Sorted` states it and the theorems carry it.
-/

namespace DB

/-- Modelled from the spec: the value type `MergeTreePartInfo`, declared in a header
that is not part of the sources at hand.  Section 3 of the spec gives its five
fields: partition id, the closed block range, the merge level, the mutation
version. -/
structure MergeTreePartInfo where
  partition_id : String
  min_block : Int
  max_block : Int
  level : Nat
  mutation : Int
deriving DecidableEq, Repr

namespace MergeTreePartInfo

/-- Modelled from the spec: `operator<` of `MergeTreePartInfo`, the total order
"defined lexicographically over (partition id, range start, range end, level,
mutation version)". -/
def lt (a b : MergeTreePartInfo) : Prop :=
  a.partition_id < b.partition_id ∨ (a.partition_id = b.partition_id ∧
    (a.min_block < b.min_block ∨ (a.min_block = b.min_block ∧
      (a.max_block < b.max_block ∨ (a.max_block = b.max_block ∧
        (a.level < b.level ∨ (a.level = b.level ∧ a.mutation < b.mutation)))))))

instance : DecidableRel lt := fun a b =>
  if h : a.partition_id = b.partition_id then
    decidable_of_iff (a.min_block < b.min_block ∨ (a.min_block = b.min_block ∧
      (a.max_block < b.max_block ∨ (a.max_block = b.max_block ∧
        (a.level < b.level ∨ (a.level = b.level ∧ a.mutation < b.mutation))))))
      (by simp [lt, h])
  else
    decidable_of_iff (a.partition_id.toList < b.partition_id.toList)
      (by simp [lt, h])

/-- Modelled from the spec: `MergeTreePartInfo::contains`, the covering relation of
the data model: same partition, the range of `a` encloses the range of `b`, and
when the two ranges are exactly equal the (level, mutation) pair of `a` is
greater-or-equal to that of `b` in the order of the pair. -/
def contains (a b : MergeTreePartInfo) : Prop :=
  a.partition_id = b.partition_id ∧ a.min_block ≤ b.min_block ∧ a.max_block ≥ b.max_block ∧
    ((a.min_block = b.min_block ∧ a.max_block = b.max_block) →
      (b.level < a.level ∨ (b.level = a.level ∧ b.mutation ≤ a.mutation)))

instance : DecidableRel contains := fun a b => by
  delta contains
  exact inferInstance

end MergeTreePartInfo

open MergeTreePartInfo

/-- One entry of `part_info_to_name`: `first` is the key, `second` the name. -/
abbrev Entry := MergeTreePartInfo × String

/-- The only exception the component lets escape: the one `fromPartName` throws on
a name that does not parse. -/
inductive Exception where
  | BAD_DATA_PART_NAME
deriving DecidableEq, Repr

/-- The object.  `part_info_to_name` lists the entries of the map in key order. -/
structure ActiveDataPartSet where
  format_version : Nat
  part_info_to_name : List Entry
deriving DecidableEq, Repr

/-- The entries of a `std::map` are strictly ascending in the key order. -/
def Sorted (m : List Entry) : Prop := m.Pairwise (fun a b => lt a.1 b.1)

instance : DecidablePred Sorted := fun m => by
  delta Sorted
  exact inferInstance

/-- The call `part_info_to_name.lower_bound(part_info)`, as the entries before the
returned iterator and the entries from it on. -/
def lower_bound (m : List Entry) (part_info : MergeTreePartInfo) : List Entry × List Entry :=
  (m.takeWhile (fun e => decide (lt e.1 part_info)), m.dropWhile (fun e => decide (lt e.1 part_info)))

/-- The call `part_info_to_name.emplace(part_info, name)`: inserts at the place the
key order gives; a map that already has an equivalent key is left as it is. -/
def emplace : List Entry → MergeTreePartInfo → String → List Entry
  | [], part_info, name => [(part_info, name)]
  | e :: rest, part_info, name =>
    if lt e.1 part_info then e :: emplace rest part_info name
    else if lt part_info e.1 then (part_info, name) :: e :: rest
    else e :: rest

/-- Method `getContainingPartImpl`, lines 61-80.  The iterator is the lower bound; the
entry at it is tried first, then the entry before it. -/
def getContainingPartImpl (m : List Entry) (part_info : MergeTreePartInfo) : String :=
  let it := lower_bound m part_info
  let tryPrev : String :=
    match it.1.getLast? with
    | some e => if contains e.1 part_info then e.2 else ""
    | none => ""
  match it.2 with
  | e :: _ => if contains e.1 part_info then e.2 else tryPrev
  | [] => tryPrev

/-- The loop "Let's go left" of `addImpl`, lines 33-42, on the entries before the
iterator, nearest first: erase while the entry is contained in `part_info`. -/
def goLeft (part_info : MergeTreePartInfo) : List Entry → List Entry
  | [] => []
  | e :: rest => if ¬ contains part_info e.1 then e :: rest else goLeft part_info rest

/-- The loop "Let's go to the right" of `addImpl`, lines 45-48, on the entries from
the iterator on. -/
def goRight (part_info : MergeTreePartInfo) : List Entry → List Entry
  | [] => []
  | e :: rest => if contains part_info e.1 then goRight part_info rest else e :: rest

/-- The body of `addImpl` after the name is parsed, lines 26-50. -/
def addInfo (m : List Entry) (part_info : MergeTreePartInfo) (name : String) : List Entry :=
  if getContainingPartImpl m part_info ≠ "" then m
  else
    let it := lower_bound m part_info
    let left := (goLeft part_info it.1.reverse).reverse
    let right := goRight part_info it.2
    emplace (left ++ right) part_info name

section Operations

/- `MergeTreePartInfo::fromPartName(name, format_version)`, of a file that is not
among the sources: a parameter.  `none` stands for the exception it throws on a
malformed name. -/
variable (fromPartName : String → Nat → Option MergeTreePartInfo)

/-- Method `addImpl`, lines 22-51.  The result is what the call returns or throws, with the
object as the call leaves it. -/
def addImpl (self : ActiveDataPartSet) (name : String) : Except Exception Unit × ActiveDataPartSet :=
  match fromPartName name self.format_version with
  | none => (.error .BAD_DATA_PART_NAME, self)
  | some part_info =>
    (.ok (), { self with part_info_to_name := addInfo self.part_info_to_name part_info name })

/-- Method `add`, lines 15-19: `addImpl` under the lock. -/
def add (self : ActiveDataPartSet) (name : String) : Except Exception Unit × ActiveDataPartSet :=
  addImpl fromPartName self name

/-- The loop of the constructor, lines 10-11; an exception of `addImpl` ends it. -/
def addAll (self : ActiveDataPartSet) : List String → Except Exception Unit × ActiveDataPartSet
  | [] => (.ok (), self)
  | name :: names =>
    match addImpl fromPartName self name with
    | (.ok (), self') => addAll self' names
    | (.error e, self') => (.error e, self')

/-- The constructor, lines 7-12. -/
def construct (format_version_ : Nat) (names : List String) :
    Except Exception Unit × ActiveDataPartSet :=
  addAll fromPartName { format_version := format_version_, part_info_to_name := [] } names

/-- Method `getContainingPart`, lines 54-58. -/
def getContainingPart (self : ActiveDataPartSet) (part_name : String) : Except Exception String :=
  match fromPartName part_name self.format_version with
  | none => .error .BAD_DATA_PART_NAME
  | some part_info => .ok (getContainingPartImpl self.part_info_to_name part_info)

end Operations

/-- The first loop of `getPartsCoveredBy`, lines 89-101, on the entries before
`it_middle`, nearest first.  `none` is the `return {}`; otherwise the entries
that `begin` has passed, nearest first. -/
def expandLeft (part_info : MergeTreePartInfo) : List Entry → Option (List Entry)
  | [] => some []
  | prev :: rest =>
    if ¬ contains part_info prev.1 then
      if contains prev.1 part_info then none else some []
    else (expandLeft part_info rest).map (fun l => prev :: l)

/-- The second loop of `getPartsCoveredBy`, lines 104-114, on the entries from
`it_middle` on.  `none` is the `return {}`; otherwise the entries that `end` has
passed. -/
def expandRight (part_info : MergeTreePartInfo) : List Entry → Option (List Entry)
  | [] => some []
  | e :: rest =>
    if ¬ contains part_info e.1 then
      if contains e.1 part_info then none else some []
    else (expandRight part_info rest).map (fun l => e :: l)

/-- Method `getPartsCoveredBy`, lines 83-121. -/
def getPartsCoveredBy (self : ActiveDataPartSet) (part_info : MergeTreePartInfo) : List String :=
  let it_middle := lower_bound self.part_info_to_name part_info
  match expandLeft part_info it_middle.1.reverse with
  | none => []
  | some l =>
    match expandRight part_info it_middle.2 with
    | none => []
    | some r => (l.reverse ++ r).map (fun kv => kv.2)

/-- Method `getParts`, lines 124-134. -/
def getParts (self : ActiveDataPartSet) : List String :=
  self.part_info_to_name.map (fun kv => kv.2)

/-- Method `size`, lines 137-141. -/
def size (self : ActiveDataPartSet) : Nat :=
  self.part_info_to_name.length

/-! ## Predicates on registry states -/

namespace MergeTreePartInfo

/-- The part of `lt` after the partition id. -/
def ltBlocks (a b : MergeTreePartInfo) : Prop :=
  a.min_block < b.min_block ∨ (a.min_block = b.min_block ∧
    (a.max_block < b.max_block ∨ (a.max_block = b.max_block ∧
      (a.level < b.level ∨ (a.level = b.level ∧ a.mutation < b.mutation)))))

/-- The part of `contains` after the partition id. -/
def containsBlocks (a b : MergeTreePartInfo) : Prop :=
  a.min_block ≤ b.min_block ∧ a.max_block ≥ b.max_block ∧
    ((a.min_block = b.min_block ∧ a.max_block = b.max_block) →
      (b.level < a.level ∨ (b.level = a.level ∧ b.mutation ≤ a.mutation)))

end MergeTreePartInfo

/-- The entry of the map at the lower bound of `x`: the least key that is not less
than `x`. -/
def IsLowerBound (m : List Entry) (x : MergeTreePartInfo) (e : Entry) : Prop :=
  e ∈ m ∧ ¬ lt e.1 x ∧ ∀ a ∈ m, ¬ lt a.1 x → ¬ lt a.1 e.1

/-- The entry of the map just before the lower bound of `x`: the greatest key
less than `x`. -/
def IsPredecessor (m : List Entry) (x : MergeTreePartInfo) (e : Entry) : Prop :=
  e ∈ m ∧ lt e.1 x ∧ ∀ a ∈ m, lt a.1 x → ¬ lt e.1 a.1

/-- The block range of `e` lies inside the block range of `x`, in the same
partition. -/
def rangeInside (x e : MergeTreePartInfo) : Prop :=
  e.partition_id = x.partition_id ∧ x.min_block ≤ e.min_block ∧ e.max_block ≤ x.max_block

instance : DecidableRel rangeInside := fun x e => by
  delta rangeInside
  exact inferInstance

/-- The keys of the map, in order. -/
def keys (m : List Entry) : List MergeTreePartInfo := m.map (fun kv => kv.1)

/-- A name parser for the examples, on the names of section 8 of the spec:
`p_1_1_0` is partition `p`, blocks 1 to 1, level 0, and so on; every other name is
malformed. -/
def exampleFromPartName (name : String) (_format_version : Nat) : Option MergeTreePartInfo :=
  if name = "p_1_1_0" then some ⟨"p", 1, 1, 0, 0⟩
  else if name = "p_2_2_0" then some ⟨"p", 2, 2, 0, 0⟩
  else if name = "p_1_2_1" then some ⟨"p", 1, 2, 1, 0⟩
  else none

/-- The empty registry of the examples. -/
def exampleEmpty : ActiveDataPartSet := ⟨0, []⟩

/-- Scenario 1 of the spec: after `add("p_1_1_0")` and `add("p_2_2_0")`. -/
def exampleTwo : ActiveDataPartSet :=
  (add exampleFromPartName (add exampleFromPartName exampleEmpty "p_1_1_0").2 "p_2_2_0").2

/-- Scenario 2 of the spec: a further `add("p_1_2_1")`. -/
def exampleMerged : ActiveDataPartSet :=
  (add exampleFromPartName exampleTwo "p_1_2_1").2

/-- The entries that are not contained in `x`: those an insertion of `x` keeps. -/
def kept (x : MergeTreePartInfo) (l : List Entry) : List Entry :=
  l.filter (fun e => decide (¬ contains x e.1))

/-- The entries that are contained in `x`. -/
def covered (x : MergeTreePartInfo) (l : List Entry) : List Entry :=
  l.filter (fun e => decide (contains x e.1))

/-- No entry of the list contains an entry that comes later in it, nor is contained
in one. -/
def Antichain (m : List Entry) : Prop :=
  m.Pairwise (fun a b => ¬ contains a.1 b.1 ∧ ¬ contains b.1 a.1)

/-- What every state built by `add` satisfies: keys strictly ascending, no empty
name, no entry containing another. -/
structure Inv (m : List Entry) : Prop where
  sorted : Sorted m
  names : ∀ e ∈ m, e.2 ≠ ""
  antichain : Antichain m

/-- The states obtained from an empty registry by successful calls of `add` with
non-empty names. -/
inductive Reachable (fromPartName : String → Nat → Option MergeTreePartInfo) :
    ActiveDataPartSet → Prop where
  | empty (format_version : Nat) : Reachable fromPartName ⟨format_version, []⟩
  | add (self : ActiveDataPartSet) (name : String) :
      Reachable fromPartName self → name ≠ "" → (add fromPartName self name).1 = .ok () →
      Reachable fromPartName (add fromPartName self name).2

/-- The runs of `add`: the states obtained from `self` by successful calls of `add`
with non-empty names. -/
inductive Reaches (fromPartName : String → Nat → Option MergeTreePartInfo)
    (self : ActiveDataPartSet) : ActiveDataPartSet → Prop where
  | refl : Reaches fromPartName self self
  | add (later : ActiveDataPartSet) (name : String) :
      Reaches fromPartName self later → name ≠ "" →
      (add fromPartName later name).1 = .ok () →
      Reaches fromPartName self (add fromPartName later name).2


/-! ## The key order and the covering relation -/

namespace MergeTreePartInfo

theorem lt_iff_of_pid_eq {a b : MergeTreePartInfo} (h : a.partition_id = b.partition_id) :
    lt a b ↔ ltBlocks a b := by
  simp [lt, ltBlocks, h]

theorem contains_iff {a b : MergeTreePartInfo} :
    contains a b ↔ a.partition_id = b.partition_id ∧ containsBlocks a b := Iff.rfl

theorem pid_le_of_lt {a b : MergeTreePartInfo} (h : lt a b) : a.partition_id ≤ b.partition_id := by
  rcases h with h | ⟨h, -⟩
  · exact le_of_lt h
  · exact le_of_eq h

theorem pid_le_of_not_lt {a b : MergeTreePartInfo} (h : ¬ lt a b) :
    b.partition_id ≤ a.partition_id := by
  by_contra hc
  exact h (Or.inl (lt_of_not_le hc))

theorem not_lt_iff_of_pid_eq {a b : MergeTreePartInfo} (h : a.partition_id = b.partition_id) :
    ¬ lt a b ↔ ¬ ltBlocks a b := not_congr (lt_iff_of_pid_eq h)

theorem ext_fields {a b : MergeTreePartInfo} (hp : a.partition_id = b.partition_id)
    (h1 : a.min_block = b.min_block) (h2 : a.max_block = b.max_block) (h3 : a.level = b.level)
    (h4 : a.mutation = b.mutation) : a = b := by
  cases a; cases b; simp_all

theorem lt_irrefl_info (a : MergeTreePartInfo) : ¬ lt a a := by
  rw [lt_iff_of_pid_eq rfl]; unfold ltBlocks; omega

theorem lt_trans_info {a b c : MergeTreePartInfo} (hab : lt a b) (hbc : lt b c) : lt a c := by
  rcases hab with h | ⟨h, hab⟩
  · rcases hbc with h' | ⟨h', -⟩
    · exact Or.inl (h.trans h')
    · exact Or.inl (h' ▸ h)
  · rcases hbc with h' | ⟨h', hbc⟩
    · exact Or.inl (h ▸ h')
    · exact Or.inr ⟨h.trans h', by omega⟩

theorem lt_asymm_info {a b : MergeTreePartInfo} (hab : lt a b) : ¬ lt b a :=
  fun hba => lt_irrefl_info a (lt_trans_info hab hba)

theorem eq_of_not_lt {a b : MergeTreePartInfo} (h1 : ¬ lt a b) (h2 : ¬ lt b a) : a = b := by
  have hp : a.partition_id = b.partition_id :=
    le_antisymm (pid_le_of_not_lt h2) (pid_le_of_not_lt h1)
  rw [not_lt_iff_of_pid_eq hp] at h1
  rw [not_lt_iff_of_pid_eq hp.symm] at h2
  unfold ltBlocks at h1 h2
  exact ext_fields hp (by omega) (by omega) (by omega) (by omega)

theorem contains_refl (a : MergeTreePartInfo) : contains a a := by
  refine ⟨rfl, ?_⟩; omega

theorem contains_trans {a b c : MergeTreePartInfo} (hab : contains a b) (hbc : contains b c) :
    contains a c := by
  obtain ⟨hp, hab⟩ := hab
  obtain ⟨hp', hbc⟩ := hbc
  refine ⟨hp.trans hp', ?_⟩
  omega

theorem contains_antisymm {a b : MergeTreePartInfo} (hab : contains a b) (hba : contains b a) :
    a = b := by
  obtain ⟨hp, hab⟩ := hab
  obtain ⟨-, hba⟩ := hba
  exact ext_fields hp (by omega) (by omega) (by omega) (by omega)

/-- An entry between a containing entry and the contained one, on the left: it is
contained in the first or contains the last. -/
theorem contains_between_left {e p x : MergeTreePartInfo} (hep : lt e p) (hpx : lt p x)
    (hc : contains e x) : contains e p ∨ contains p x := by
  obtain ⟨hp, hc⟩ := hc
  have h1 : e.partition_id = p.partition_id :=
    le_antisymm (pid_le_of_lt hep) (hp ▸ pid_le_of_lt hpx)
  have h2 : p.partition_id = x.partition_id := h1.symm.trans hp
  rw [lt_iff_of_pid_eq h1] at hep
  rw [lt_iff_of_pid_eq h2] at hpx
  unfold ltBlocks at hep hpx
  have : containsBlocks e p ∨ containsBlocks p x := by unfold containsBlocks; omega
  exact this.imp (fun h => ⟨h1, h⟩) (fun h => ⟨h2, h⟩)

/-- An entry between the contained one and a containing entry, on the right: it
is contained in the containing entry. -/
theorem contains_between_right {x l e : MergeTreePartInfo} (hxl : ¬ lt l x) (hle : lt l e)
    (hc : contains e x) : contains e l := by
  obtain ⟨hp, hc⟩ := hc
  have h1 : l.partition_id = e.partition_id :=
    le_antisymm (pid_le_of_lt hle) (hp ▸ pid_le_of_not_lt hxl)
  have h2 : l.partition_id = x.partition_id := h1.trans hp
  rw [lt_iff_of_pid_eq h1] at hle
  rw [not_lt_iff_of_pid_eq h2] at hxl
  unfold ltBlocks at hle hxl
  refine ⟨h1.symm, ?_⟩
  omega

/-- Left of `x`, the entries `x` contains are those that start where `x` starts. -/
theorem contains_of_lt_iff {e x : MergeTreePartInfo} (hex : lt e x) :
    contains x e ↔ x.partition_id = e.partition_id ∧ x.min_block = e.min_block := by
  constructor
  · rintro ⟨hp, hc⟩
    rw [lt_iff_of_pid_eq hp.symm] at hex
    unfold ltBlocks at hex
    exact ⟨hp, by omega⟩
  · rintro ⟨hp, hm⟩
    rw [lt_iff_of_pid_eq hp.symm] at hex
    unfold ltBlocks at hex
    refine ⟨hp, ?_⟩
    omega

/-- Left of `x`, the entries `x` contains are next to `x`. -/
theorem contains_left_closed {b a x : MergeTreePartInfo} (hba : lt b a) (hax : lt a x)
    (hc : contains x b) : contains x a := by
  have hbx := lt_trans_info hba hax
  obtain ⟨hp, hm⟩ := (contains_of_lt_iff hbx).1 hc
  have h1 : a.partition_id = x.partition_id :=
    le_antisymm (pid_le_of_lt hax) (hp ▸ pid_le_of_lt hba)
  rw [contains_of_lt_iff hax]
  rw [lt_iff_of_pid_eq (hp.symm.trans h1.symm)] at hba
  rw [lt_iff_of_pid_eq h1] at hax
  unfold ltBlocks at hba hax
  exact ⟨h1.symm, by omega⟩

/-- Right of `x`, an entry before one that `x` contains is contained in `x`, or it
contains that entry, or it contains `x`. -/
theorem contains_right_closed {x a b : MergeTreePartInfo} (hxa : ¬ lt a x) (hab : lt a b)
    (hc : contains x b) : contains x a ∨ contains a b ∨ contains a x := by
  obtain ⟨hp, hc⟩ := hc
  have h1 : a.partition_id = b.partition_id :=
    le_antisymm (pid_le_of_lt hab) (hp ▸ pid_le_of_not_lt hxa)
  have h2 : a.partition_id = x.partition_id := h1.trans hp.symm
  rw [lt_iff_of_pid_eq h1] at hab
  rw [not_lt_iff_of_pid_eq h2] at hxa
  unfold ltBlocks at hab hxa
  have : containsBlocks x a ∨ containsBlocks a b ∨ containsBlocks a x := by
    unfold containsBlocks; omega
  rcases this with h | h | h
  · exact Or.inl ⟨h2.symm, h⟩
  · exact Or.inr (Or.inl ⟨h1, h⟩)
  · exact Or.inr (Or.inr ⟨h2, h⟩)

end MergeTreePartInfo

/-! ## The lower bound -/

theorem lower_bound_append (m : List Entry) (x : MergeTreePartInfo) :
    (lower_bound m x).1 ++ (lower_bound m x).2 = m := by
  simp [lower_bound]

theorem lower_bound_fst_lt (m : List Entry) (x : MergeTreePartInfo) :
    ∀ e ∈ (lower_bound m x).1, lt e.1 x := by
  intro e he
  have := List.mem_takeWhile_imp he
  simpa using this

theorem sorted_tail {e : Entry} {m : List Entry} (h : Sorted (e :: m)) : Sorted m :=
  (List.pairwise_cons.1 h).2

theorem sorted_head_lt {e : Entry} {m : List Entry} (h : Sorted (e :: m)) :
    ∀ a ∈ m, lt e.1 a.1 :=
  (List.pairwise_cons.1 h).1

theorem lower_bound_snd_not_lt {m : List Entry} (hs : Sorted m) (x : MergeTreePartInfo) :
    ∀ e ∈ (lower_bound m x).2, ¬ lt e.1 x := by
  induction m with
  | nil => simp [lower_bound]
  | cons a m ih =>
    intro e he
    by_cases ha : lt a.1 x
    · have : (lower_bound (a :: m) x).2 = (lower_bound m x).2 := by
        simp [lower_bound, List.dropWhile_cons, ha]
      rw [this] at he
      exact ih (sorted_tail hs) e he
    · have : (lower_bound (a :: m) x).2 = a :: m := by
        simp [lower_bound, List.dropWhile_cons, ha]
      rw [this] at he
      rcases List.mem_cons.1 he with rfl | he
      · exact ha
      · exact fun hex => ha (lt_trans_info (sorted_head_lt hs e he) hex)

theorem lower_bound_sorted {m : List Entry} (hs : Sorted m) (x : MergeTreePartInfo) :
    Sorted ((lower_bound m x).1 ++ (lower_bound m x).2) := by
  rw [lower_bound_append]; exact hs

theorem lower_bound_of_split {l r : List Entry} {x : MergeTreePartInfo}
    (hl : ∀ e ∈ l, lt e.1 x) (hr : ∀ e, r.head? = some e → ¬ lt e.1 x) :
    lower_bound (l ++ r) x = (l, r) := by
  induction l with
  | nil =>
    cases r with
    | nil => simp [lower_bound]
    | cons a r =>
      have := hr a rfl
      simp [lower_bound, List.takeWhile_cons, List.dropWhile_cons, this]
  | cons a l ih =>
    have ha := hl a (List.mem_cons_self _ _)
    have := ih (fun e he => hl e (List.mem_cons_of_mem _ he))
    simp only [lower_bound, List.cons_append, List.takeWhile_cons, List.dropWhile_cons, ha,
      decide_True, if_true] at this ⊢
    simp only [Prod.mk.injEq] at this
    simp [this.1, this.2]

/-! ## The containing lookup -/

theorem getContainingPartImpl_eq (m : List Entry) (x : MergeTreePartInfo) :
    getContainingPartImpl m x =
      match (lower_bound m x).2.head? with
      | some e =>
        if contains e.1 x then e.2
        else match (lower_bound m x).1.reverse.head? with
          | some p => if contains p.1 x then p.2 else ""
          | none => ""
      | none =>
        match (lower_bound m x).1.reverse.head? with
        | some p => if contains p.1 x then p.2 else ""
        | none => "" := by
  unfold getContainingPartImpl
  simp only [List.head?_reverse]
  cases (lower_bound m x).2 <;> rfl

/-- Soundness of the lookup on any list: a non-empty result is the name of the
entry at the lower bound, or of the entry before it. -/
theorem getContainingPartImpl_sound {m : List Entry} {x : MergeTreePartInfo}
    (h : getContainingPartImpl m x ≠ "") :
    (∃ e, (lower_bound m x).2.head? = some e ∧ contains e.1 x ∧
        getContainingPartImpl m x = e.2) ∨
    ((∀ e, (lower_bound m x).2.head? = some e → ¬ contains e.1 x) ∧
      ∃ p, (lower_bound m x).1.reverse.head? = some p ∧ contains p.1 x ∧
        getContainingPartImpl m x = p.2) := by
  rw [getContainingPartImpl_eq] at h ⊢
  cases h2 : (lower_bound m x).2.head? with
  | some e =>
    simp only [h2] at h ⊢
    by_cases hc : contains e.1 x
    · left; exact ⟨e, rfl, hc, by simp [hc]⟩
    · right
      simp only [hc, if_false] at h ⊢
      refine ⟨by simpa using hc, ?_⟩
      cases h1 : (lower_bound m x).1.reverse.head? with
      | none => simp [h1] at h
      | some p =>
        simp only [h1] at h ⊢
        by_cases hp : contains p.1 x
        · exact ⟨p, rfl, hp, by simp [hp]⟩
        · simp [hp] at h
  | none =>
    simp only [h2] at h ⊢
    right
    refine ⟨by simp, ?_⟩
    cases h1 : (lower_bound m x).1.reverse.head? with
    | none => simp [h1] at h
    | some p =>
      simp only [h1] at h ⊢
      by_cases hp : contains p.1 x
      · exact ⟨p, rfl, hp, by simp [hp]⟩
      · simp [hp] at h

theorem mem_of_head? {l : List Entry} {e : Entry} (h : l.head? = some e) : e ∈ l := by
  cases l with
  | nil => simp at h
  | cons a l => simp at h; simp [h]

theorem mem_fst_of_head? {m : List Entry} {x : MergeTreePartInfo} {e : Entry}
    (h : (lower_bound m x).1.reverse.head? = some e) : e ∈ m := by
  have := mem_of_head? h
  rw [← lower_bound_append m x]
  exact List.mem_append_left _ (List.mem_reverse.1 this)

theorem mem_snd_of_head? {m : List Entry} {x : MergeTreePartInfo} {e : Entry}
    (h : (lower_bound m x).2.head? = some e) : e ∈ m := by
  have := mem_of_head? h
  rw [← lower_bound_append m x]
  exact List.mem_append_right _ this

theorem getContainingPartImpl_mem {m : List Entry} {x : MergeTreePartInfo}
    (h : getContainingPartImpl m x ≠ "") :
    ∃ e ∈ m, contains e.1 x ∧ getContainingPartImpl m x = e.2 := by
  rcases getContainingPartImpl_sound h with ⟨e, he, hc, hn⟩ | ⟨-, p, hp, hc, hn⟩
  · exact ⟨e, mem_snd_of_head? he, hc, hn⟩
  · exact ⟨p, mem_fst_of_head? hp, hc, hn⟩

/-! ## Adjacency of a containing entry -/

theorem antichain_of_append_left {l r : List Entry} (h : Antichain (l ++ r)) : Antichain l :=
  (List.pairwise_append.1 h).1

theorem antichain_of_append_right {l r : List Entry} (h : Antichain (l ++ r)) : Antichain r :=
  (List.pairwise_append.1 h).2.1

theorem sorted_of_append_left {l r : List Entry} (h : Sorted (l ++ r)) : Sorted l :=
  (List.pairwise_append.1 h).1

theorem sorted_of_append_right {l r : List Entry} (h : Sorted (l ++ r)) : Sorted r :=
  (List.pairwise_append.1 h).2.1

theorem eq_append_of_reverse_eq_cons {l rest : List Entry} {p : Entry}
    (h : l.reverse = p :: rest) : l = rest.reverse ++ [p] := by
  rw [← List.reverse_reverse l, h]; simp

/-- In a sorted antichain an entry that contains `x` is the entry at the lower
bound of `x`, or the entry before the lower bound contains `x` as well. -/
theorem container_adjacent {m : List Entry} (hs : Sorted m) (ha : Antichain m)
    {x : MergeTreePartInfo} {e : Entry} (he : e ∈ m) (hc : contains e.1 x) :
    (lower_bound m x).2.head? = some e ∨
    ∃ p, (lower_bound m x).1.reverse.head? = some p ∧ contains p.1 x ∧ lt p.1 x := by
  have hlt := lower_bound_fst_lt m x
  have hge := lower_bound_snd_not_lt hs x
  have hs' := lower_bound_sorted hs x
  have ha' : Antichain ((lower_bound m x).1 ++ (lower_bound m x).2) := by
    rw [lower_bound_append]; exact ha
  rw [← lower_bound_append m x] at he
  generalize (lower_bound m x).1 = b at *
  generalize (lower_bound m x).2 = a at *
  rcases List.mem_append.1 he with he | he
  · right
    cases hb : b.reverse with
    | nil => simp at hb; simp [hb] at he
    | cons p rest =>
      have hb' := eq_append_of_reverse_eq_cons hb
      subst hb'
      refine ⟨p, rfl, ?_, hlt p (by simp)⟩
      rcases List.mem_append.1 he with he | he
      · have hsb := List.pairwise_append.1 (sorted_of_append_left hs')
        have hab := List.pairwise_append.1 (antichain_of_append_left ha')
        have h1 : lt e.1 p.1 := hsb.2.2 e he p (by simp)
        have h2 : ¬ contains e.1 p.1 := (hab.2.2 e he p (by simp)).1
        rcases contains_between_left h1 (hlt p (by simp)) hc with h | h
        · exact absurd h h2
        · exact h
      · simp at he; subst he; exact hc
  · left
    cases a with
    | nil => simp at he
    | cons l rest =>
      rcases List.mem_cons.1 he with rfl | he
      · rfl
      · exfalso
        have h1 : lt l.1 e.1 := sorted_head_lt (sorted_of_append_right hs') e he
        have h2 : ¬ contains e.1 l.1 :=
          ((List.pairwise_cons.1 (antichain_of_append_right ha')).1 e he).2
        exact h2 (contains_between_right (hge l (by simp)) h1 hc)

/-- Completeness of the lookup. -/
theorem getContainingPartImpl_complete {m : List Entry} (hi : Inv m) {x : MergeTreePartInfo}
    {e : Entry} (he : e ∈ m) (hc : contains e.1 x) : getContainingPartImpl m x ≠ "" := by
  rw [getContainingPartImpl_eq]
  rcases container_adjacent hi.sorted hi.antichain he hc with h | ⟨p, hp, hpc, -⟩
  · simp only [h, hc, if_true]
    exact hi.names e he
  · have hpn := hi.names p (mem_fst_of_head? hp)
    cases h2 : (lower_bound m x).2.head? with
    | none => simp only [hp, hpc, if_true]; exact hpn
    | some l =>
      by_cases hl : contains l.1 x
      · simp only [hl, if_true]; exact hi.names l (mem_snd_of_head? h2)
      · simp only [hl, if_false, hp, hpc, if_true]; exact hpn

theorem getContainingPartImpl_eq_empty {m : List Entry} {x : MergeTreePartInfo}
    (h : ∀ e ∈ m, ¬ contains e.1 x) : getContainingPartImpl m x = "" := by
  by_contra hne
  obtain ⟨e, he, hc, -⟩ := getContainingPartImpl_mem hne
  exact h e he hc

theorem getContainingPartImpl_ne_empty_iff {m : List Entry} (hi : Inv m)
    (x : MergeTreePartInfo) :
    getContainingPartImpl m x ≠ "" ↔ ∃ e ∈ m, contains e.1 x := by
  constructor
  · intro h
    obtain ⟨e, he, hc, -⟩ := getContainingPartImpl_mem h
    exact ⟨e, he, hc⟩
  · rintro ⟨e, he, hc⟩
    exact getContainingPartImpl_complete hi he hc

/-! ## The two scans of `addImpl` -/

theorem goLeft_eq_goRight (x : MergeTreePartInfo) (l : List Entry) :
    goLeft x l = goRight x l := by
  induction l with
  | nil => rfl
  | cons e rest ih =>
    by_cases h : contains x e.1 <;> simp [goLeft, goRight, h, ih]

theorem goRight_eq_filter {x : MergeTreePartInfo} {l : List Entry}
    (h : l.Pairwise (fun a b => contains x b.1 → contains x a.1)) :
    goRight x l = l.filter (fun e => decide (¬ contains x e.1)) := by
  induction l with
  | nil => rfl
  | cons e rest ih =>
    obtain ⟨h1, h2⟩ := List.pairwise_cons.1 h
    by_cases hc : contains x e.1
    · simp [goRight, hc, ih h2]
    · have : rest.filter (fun e => decide (¬ contains x e.1)) = rest := by
        rw [List.filter_eq_self]
        intro a ha
        simpa using fun hca => hc (h1 a ha hca)
      rw [List.filter_cons_of_pos (by simpa using hc), this]
      simp [goRight, hc]

theorem left_closed {m : List Entry} (hs : Sorted m) (x : MergeTreePartInfo) :
    (lower_bound m x).1.reverse.Pairwise (fun a b => contains x b.1 → contains x a.1) := by
  rw [List.pairwise_reverse]
  have h1 : Sorted (lower_bound m x).1 := sorted_of_append_left (lower_bound_sorted hs x)
  exact List.Pairwise.imp_of_mem
    (fun {a b} _ hb hab hc => contains_left_closed hab (lower_bound_fst_lt m x b hb) hc) h1

theorem right_closed {m : List Entry} (hs : Sorted m) (ha : Antichain m)
    {x : MergeTreePartInfo} (hx : ∀ e ∈ m, ¬ contains e.1 x) :
    (lower_bound m x).2.Pairwise (fun a b => contains x b.1 → contains x a.1) := by
  have h1 : Sorted (lower_bound m x).2 := sorted_of_append_right (lower_bound_sorted hs x)
  have h2 : Antichain (lower_bound m x).2 := by
    have : Antichain ((lower_bound m x).1 ++ (lower_bound m x).2) := by
      rw [lower_bound_append]; exact ha
    exact antichain_of_append_right this
  refine List.Pairwise.imp_of_mem ?_ (List.Pairwise.and h1 h2)
  intro a b hma _ hab hc
  have hma' : a ∈ m := by
    rw [← lower_bound_append m x]; exact List.mem_append_right _ hma
  rcases contains_right_closed (lower_bound_snd_not_lt hs x a hma) hab.1 hc with h | h | h
  · exact h
  · exact absurd h hab.2.1
  · exact absurd h (hx a hma')

/-! ## The insertion -/

theorem emplace_of_split {l r : List Entry} {x : MergeTreePartInfo} (name : String)
    (hl : ∀ e ∈ l, lt e.1 x) (hr : ∀ e ∈ r, lt x e.1) :
    emplace (l ++ r) x name = l ++ (x, name) :: r := by
  induction l with
  | nil =>
    cases r with
    | nil => rfl
    | cons e r =>
      have h1 := hr e (by simp)
      have h2 := lt_asymm_info h1
      simp [emplace, h1, h2]
  | cons e l ih =>
    have h1 := hl e (by simp)
    have := ih (fun a ha => hl a (List.mem_cons_of_mem _ ha))
    simp [emplace, h1, this]

theorem addInfo_of_contained {m : List Entry} {x : MergeTreePartInfo} (name : String)
    (h : getContainingPartImpl m x ≠ "") : addInfo m x name = m := by
  simp [addInfo, h]

/-- The effect of `addInfo` when no entry contains `x`: the entries `x` contains
go, and `x` comes in at the lower bound. -/
theorem addInfo_of_not_contained {m : List Entry} (hs : Sorted m) (ha : Antichain m)
    {x : MergeTreePartInfo} (name : String) (hx : ∀ e ∈ m, ¬ contains e.1 x) :
    addInfo m x name =
      kept x (lower_bound m x).1 ++ (x, name) :: kept x (lower_bound m x).2 := by
  have h0 := getContainingPartImpl_eq_empty hx
  have hl : (goLeft x (lower_bound m x).1.reverse).reverse = kept x (lower_bound m x).1 := by
    rw [goLeft_eq_goRight, goRight_eq_filter (left_closed hs x)]
    simp [kept, List.filter_reverse]
  have hr : goRight x (lower_bound m x).2 = kept x (lower_bound m x).2 :=
    goRight_eq_filter (right_closed hs ha hx)
  simp only [addInfo, h0, ne_eq, not_true_eq_false, if_false, hl, hr]
  apply emplace_of_split
  · intro e he
    exact lower_bound_fst_lt m x e (List.mem_of_mem_filter he)
  · intro e he
    have h1 := lower_bound_snd_not_lt hs x e (List.mem_of_mem_filter he)
    have h2 : ¬ contains x e.1 := by simpa [kept] using (List.mem_filter.1 he).2
    by_contra h3
    have := eq_of_not_lt h1 h3
    exact h2 (this ▸ contains_refl _)

theorem kept_append (x : MergeTreePartInfo) (l r : List Entry) :
    kept x (l ++ r) = kept x l ++ kept x r := by
  simp [kept]

theorem mem_kept {x : MergeTreePartInfo} {l : List Entry} {e : Entry} :
    e ∈ kept x l ↔ e ∈ l ∧ ¬ contains x e.1 := by
  simp [kept]

theorem kept_lower_bound (m : List Entry) (x : MergeTreePartInfo) :
    kept x (lower_bound m x).1 ++ kept x (lower_bound m x).2 = kept x m := by
  rw [← kept_append, lower_bound_append]

theorem mem_addInfo_of_not_contained {m : List Entry} (hs : Sorted m) (ha : Antichain m)
    {x : MergeTreePartInfo} (name : String) (hx : ∀ e ∈ m, ¬ contains e.1 x) (e : Entry) :
    e ∈ addInfo m x name ↔ e = (x, name) ∨ (e ∈ m ∧ ¬ contains x e.1) := by
  rw [addInfo_of_not_contained hs ha name hx, ← mem_kept, ← kept_lower_bound m x]
  simp only [List.mem_append, List.mem_cons]
  tauto

theorem length_addInfo_of_not_contained {m : List Entry} (hs : Sorted m) (ha : Antichain m)
    {x : MergeTreePartInfo} (name : String) (hx : ∀ e ∈ m, ¬ contains e.1 x) :
    (addInfo m x name).length = (kept x m).length + 1 := by
  rw [addInfo_of_not_contained hs ha name hx, ← kept_lower_bound m x]
  simp only [List.length_append, List.length_cons]
  omega

theorem length_kept_add_covered (x : MergeTreePartInfo) (l : List Entry) :
    (kept x l).length + (covered x l).length = l.length := by
  induction l with
  | nil => rfl
  | cons e l ih =>
    by_cases h : contains x e.1
    · have h1 : kept x (e :: l) = kept x l := by simp [kept, h]
      have h2 : covered x (e :: l) = e :: covered x l := by simp [covered, h]
      rw [h1, h2]; simp only [List.length_cons]; omega
    · have h1 : kept x (e :: l) = e :: kept x l := by simp [kept, h]
      have h2 : covered x (e :: l) = covered x l := by simp [covered, h]
      rw [h1, h2]; simp only [List.length_cons]; omega

/-! ## The invariant -/

theorem inv_nil : Inv [] :=
  ⟨List.Pairwise.nil, by simp, List.Pairwise.nil⟩

theorem inv_insert {b a : List Entry} {x : MergeTreePartInfo} {name : String}
    (hi : Inv (b ++ a)) (hb : ∀ e ∈ b, lt e.1 x) (ha : ∀ e ∈ a, ¬ lt e.1 x)
    (hx : ∀ e ∈ b ++ a, ¬ contains e.1 x) (hn : name ≠ "") :
    Inv (kept x b ++ (x, name) :: kept x a) := by
  obtain ⟨hs, hnm, hac⟩ := hi
  obtain ⟨hs1, hs2, hs3⟩ := List.pairwise_append.1 hs
  obtain ⟨ha1, ha2, ha3⟩ := List.pairwise_append.1 hac
  have hxa : ∀ e ∈ kept x a, lt x e.1 := by
    intro e he
    obtain ⟨he1, he2⟩ := mem_kept.1 he
    by_contra h3
    exact he2 ((eq_of_not_lt (ha e he1) h3) ▸ contains_refl _)
  refine ⟨?_, ?_, ?_⟩
  · refine List.pairwise_append.2 ⟨hs1.sublist (List.filter_sublist _), ?_, ?_⟩
    · exact List.pairwise_cons.2 ⟨fun e he => hxa e he, hs2.sublist (List.filter_sublist _)⟩
    · intro p hp q hq
      rcases List.mem_cons.1 hq with rfl | hq
      · exact hb p (mem_kept.1 hp).1
      · exact hs3 p (mem_kept.1 hp).1 q (mem_kept.1 hq).1
  · intro e he
    rcases List.mem_append.1 he with he | he
    · exact hnm e (List.mem_append_left _ (mem_kept.1 he).1)
    · rcases List.mem_cons.1 he with rfl | he
      · exact hn
      · exact hnm e (List.mem_append_right _ (mem_kept.1 he).1)
  · refine List.pairwise_append.2 ⟨ha1.sublist (List.filter_sublist _), ?_, ?_⟩
    · refine List.pairwise_cons.2 ⟨?_, ha2.sublist (List.filter_sublist _)⟩
      intro e he
      exact ⟨(mem_kept.1 he).2, hx e (List.mem_append_right _ (mem_kept.1 he).1)⟩
    · intro p hp q hq
      rcases List.mem_cons.1 hq with rfl | hq
      · exact ⟨hx p (List.mem_append_left _ (mem_kept.1 hp).1), (mem_kept.1 hp).2⟩
      · exact ha3 p (mem_kept.1 hp).1 q (mem_kept.1 hq).1

theorem not_contained_of_lookup_empty {m : List Entry} (hi : Inv m) {x : MergeTreePartInfo}
    (h : getContainingPartImpl m x = "") : ∀ e ∈ m, ¬ contains e.1 x :=
  fun _ he hc => getContainingPartImpl_complete hi he hc h

theorem inv_addInfo {m : List Entry} (hi : Inv m) (x : MergeTreePartInfo) {name : String}
    (hn : name ≠ "") : Inv (addInfo m x name) := by
  by_cases h : getContainingPartImpl m x = ""
  · have hx := not_contained_of_lookup_empty hi h
    rw [addInfo_of_not_contained hi.sorted hi.antichain name hx]
    apply inv_insert
    · rw [lower_bound_append]; exact hi
    · exact lower_bound_fst_lt m x
    · exact lower_bound_snd_not_lt hi.sorted x
    · rw [lower_bound_append]; exact hx
    · exact hn
  · rw [addInfo_of_contained name h]; exact hi

/-! ## The operations of the object -/

section Operations

variable (fromPartName : String → Nat → Option MergeTreePartInfo)

theorem addImpl_of_parse {self : ActiveDataPartSet} {name : String} {x : MergeTreePartInfo}
    (h : fromPartName name self.format_version = some x) :
    addImpl fromPartName self name =
      (.ok (), ⟨self.format_version, addInfo self.part_info_to_name x name⟩) := by
  simp [addImpl, h]

theorem addImpl_of_not_parse {self : ActiveDataPartSet} {name : String}
    (h : fromPartName name self.format_version = none) :
    addImpl fromPartName self name = (.error .BAD_DATA_PART_NAME, self) := by
  simp [addImpl, h]

theorem add_of_parse {self : ActiveDataPartSet} {name : String} {x : MergeTreePartInfo}
    (h : fromPartName name self.format_version = some x) :
    add fromPartName self name =
      (.ok (), ⟨self.format_version, addInfo self.part_info_to_name x name⟩) :=
  addImpl_of_parse fromPartName h

theorem add_of_not_parse {self : ActiveDataPartSet} {name : String}
    (h : fromPartName name self.format_version = none) :
    add fromPartName self name = (.error .BAD_DATA_PART_NAME, self) :=
  addImpl_of_not_parse fromPartName h

theorem parse_of_add_ok {self : ActiveDataPartSet} {name : String}
    (h : (add fromPartName self name).1 = .ok ()) :
    ∃ x, fromPartName name self.format_version = some x := by
  cases hp : fromPartName name self.format_version with
  | none => rw [add_of_not_parse fromPartName hp] at h; cases h
  | some x => exact ⟨x, rfl⟩

theorem add_format_version (self : ActiveDataPartSet) (name : String) :
    (add fromPartName self name).2.format_version = self.format_version := by
  cases hp : fromPartName name self.format_version with
  | none => rw [add_of_not_parse fromPartName hp]
  | some x => rw [add_of_parse fromPartName hp]

theorem reachable_inv {self : ActiveDataPartSet} (h : Reachable fromPartName self) :
    Inv self.part_info_to_name := by
  induction h with
  | empty fv => exact inv_nil
  | add self name _ hn hok ih =>
    obtain ⟨x, hx⟩ := parse_of_add_ok fromPartName hok
    rw [add_of_parse fromPartName hx]
    exact inv_addInfo ih x hn

end Operations

/-! ## Examples -/

theorem exampleTwo_reachable : Reachable exampleFromPartName exampleTwo :=
  Reachable.add _ _ (Reachable.add _ _ (Reachable.empty 0) (by decide) rfl) (by decide) rfl

theorem exampleMerged_reachable : Reachable exampleFromPartName exampleMerged :=
  Reachable.add _ _ exampleTwo_reachable (by decide) rfl

theorem exampleTwo_eq : exampleTwo.part_info_to_name =
    [(⟨"p", 1, 1, 0, 0⟩, "p_1_1_0"), (⟨"p", 2, 2, 0, 0⟩, "p_2_2_0")] := by decide

theorem exampleMerged_eq : exampleMerged.part_info_to_name =
    [(⟨"p", 1, 2, 1, 0⟩, "p_1_2_1")] := by decide

/-! ## Maximality -/

/-- C1. Maximality is an invariant of `add`: in every state obtained from the empty
registry by successful calls of `add` with non-empty names, no active entry
contains another one, in either direction.  Nothing is assumed about the
identities that were added. -/
theorem maximality_of_reachable (fromPartName : String → Nat → Option MergeTreePartInfo)
    (self : ActiveDataPartSet) (h : Reachable fromPartName self) :
    ∀ a ∈ self.part_info_to_name, ∀ b ∈ self.part_info_to_name, a ≠ b →
      ¬ contains a.1 b.1 ∧ ¬ contains b.1 a.1 := by
  intro a ha b hb hab
  have hsym : Symmetric (fun a b : Entry => ¬ contains a.1 b.1 ∧ ¬ contains b.1 a.1) :=
    fun _ _ h => ⟨h.2, h.1⟩
  exact List.Pairwise.forall hsym (reachable_inv fromPartName h).antichain ha hb hab

theorem maximality_of_reachable_witness :
    Reachable exampleFromPartName exampleTwo ∧
    ∀ a ∈ exampleTwo.part_info_to_name, ∀ b ∈ exampleTwo.part_info_to_name, a ≠ b →
      ¬ contains a.1 b.1 ∧ ¬ contains b.1 a.1 :=
  ⟨exampleTwo_reachable,
    maximality_of_reachable exampleFromPartName exampleTwo exampleTwo_reachable⟩

/-! ## The active set is the set of maximal identities -/

theorem mem_addInfo_cases {m : List Entry} (hi : Inv m) (x : MergeTreePartInfo)
    (name : String) {e : Entry} (he : e ∈ addInfo m x name) : e ∈ m ∨ e.1 = x := by
  by_cases h : getContainingPartImpl m x = ""
  · have hx := not_contained_of_lookup_empty hi h
    rcases (mem_addInfo_of_not_contained hi.sorted hi.antichain name hx e).1 he with rfl | h'
    · exact Or.inr rfl
    · exact Or.inl h'.1
  · rw [addInfo_of_contained name h] at he; exact Or.inl he

/-- After an insertion, what was covered stays covered and the new identity is
covered. -/
theorem covered_addInfo {m : List Entry} (hi : Inv m) (x : MergeTreePartInfo) (name : String)
    {y : MergeTreePartInfo} (hy : (∃ e ∈ m, contains e.1 y) ∨ y = x) :
    ∃ e ∈ addInfo m x name, contains e.1 y := by
  by_cases h : getContainingPartImpl m x = ""
  · have hx := not_contained_of_lookup_empty hi h
    have hmem := mem_addInfo_of_not_contained hi.sorted hi.antichain name hx
    rcases hy with ⟨e, he, hc⟩ | rfl
    · by_cases hxe : contains x e.1
      · exact ⟨(x, name), (hmem _).2 (Or.inl rfl), contains_trans hxe hc⟩
      · exact ⟨e, (hmem _).2 (Or.inr ⟨he, hxe⟩), hc⟩
    · exact ⟨(y, name), (hmem _).2 (Or.inl rfl), contains_refl _⟩
  · rw [addInfo_of_contained name h]
    rcases hy with hy | rfl
    · exact hy
    · obtain ⟨e, he, hc, -⟩ := getContainingPartImpl_mem h
      exact ⟨e, he, hc⟩

section Operations

variable (fromPartName : String → Nat → Option MergeTreePartInfo)

/-- What the loop of the constructor establishes, from any state that satisfies
the invariant. -/
theorem addAll_spec (names : List String) :
    ∀ (self : ActiveDataPartSet), Inv self.part_info_to_name →
      (∀ n ∈ names, n ≠ "" ∧ ∃ x, fromPartName n self.format_version = some x) →
      (addAll fromPartName self names).1 = .ok () ∧
      (addAll fromPartName self names).2.format_version = self.format_version ∧
      Inv (addAll fromPartName self names).2.part_info_to_name ∧
      (∀ e ∈ (addAll fromPartName self names).2.part_info_to_name,
        e ∈ self.part_info_to_name ∨
          ∃ n ∈ names, fromPartName n self.format_version = some e.1) ∧
      (∀ y, ((∃ e ∈ self.part_info_to_name, contains e.1 y) ∨
            ∃ n ∈ names, fromPartName n self.format_version = some y) →
        ∃ e ∈ (addAll fromPartName self names).2.part_info_to_name, contains e.1 y) := by
  induction names with
  | nil =>
    intro self hi _
    refine ⟨rfl, rfl, hi, fun e he => Or.inl he, ?_⟩
    rintro y (h | ⟨n, hn, -⟩)
    · exact h
    · simp at hn
  | cons name names ih =>
    intro self hi hp
    obtain ⟨hne, x, hx⟩ := hp name (by simp)
    have hstep : addAll fromPartName self (name :: names) =
        addAll fromPartName ⟨self.format_version, addInfo self.part_info_to_name x name⟩ names := by
      simp [addAll, addImpl_of_parse fromPartName hx]
    rw [hstep]
    have hi' := inv_addInfo hi x hne
    obtain ⟨h1, h2, h3, h4, h5⟩ :=
      ih ⟨self.format_version, addInfo self.part_info_to_name x name⟩ hi'
        (fun n hn => hp n (List.mem_cons_of_mem _ hn))
    refine ⟨h1, h2, h3, ?_, ?_⟩
    · intro e he
      rcases h4 e he with h | ⟨n, hn, hn'⟩
      · rcases mem_addInfo_cases hi x name h with h | h
        · exact Or.inl h
        · exact Or.inr ⟨name, by simp, h ▸ hx⟩
      · exact Or.inr ⟨n, List.mem_cons_of_mem _ hn, hn'⟩
    · intro y hy
      apply h5
      rcases hy with hy | ⟨n, hn, hn'⟩
      · exact Or.inl (covered_addInfo hi x name (Or.inl hy))
      · rcases List.mem_cons.1 hn with rfl | hn
        · have : y = x := by rw [hx] at hn'; exact (Option.some.inj hn').symm
          exact Or.inl (covered_addInfo hi x n (Or.inr this))
        · exact Or.inr ⟨n, hn, hn'⟩

/-- The loop of the constructor is the iteration of `add`, when every name parses. -/
theorem addAll_eq_foldl (names : List String) :
    ∀ (self : ActiveDataPartSet),
      (∀ n ∈ names, ∃ x, fromPartName n self.format_version = some x) →
      (addAll fromPartName self names).2 =
        names.foldl (fun s n => (add fromPartName s n).2) self := by
  induction names with
  | nil => intro self _; rfl
  | cons name names ih =>
    intro self hp
    obtain ⟨x, hx⟩ := hp name (by simp)
    have hstep : addAll fromPartName self (name :: names) =
        addAll fromPartName ⟨self.format_version, addInfo self.part_info_to_name x name⟩ names := by
      simp [addAll, addImpl_of_parse fromPartName hx]
    rw [hstep, List.foldl_cons, add_of_parse fromPartName hx]
    exact ih _ (fun n hn => hp n (List.mem_cons_of_mem _ hn))

/-- The keys after construction are the maximal identities of the list. -/
theorem construct_keys_iff (format_version : Nat) (names : List String)
    (hp : ∀ n ∈ names, n ≠ "" ∧ ∃ x, fromPartName n format_version = some x)
    (x : MergeTreePartInfo) :
    x ∈ keys (construct fromPartName format_version names).2.part_info_to_name ↔
      (∃ n ∈ names, fromPartName n format_version = some x) ∧
      ¬ ∃ n ∈ names, ∃ y, fromPartName n format_version = some y ∧ y ≠ x ∧ contains y x := by
  obtain ⟨-, -, hi, hk, hc⟩ := addAll_spec fromPartName names ⟨format_version, []⟩ inv_nil hp
  have hanti : ∀ a ∈ (construct fromPartName format_version names).2.part_info_to_name,
      ∀ b ∈ (construct fromPartName format_version names).2.part_info_to_name,
      contains a.1 b.1 → a.1 = b.1 := by
    intro a ha b hb hab
    by_contra hne
    have hsym : Symmetric (fun a b : Entry => ¬ contains a.1 b.1 ∧ ¬ contains b.1 a.1) :=
      fun _ _ h => ⟨h.2, h.1⟩
    exact (List.Pairwise.forall hsym hi.antichain ha hb (fun h => hne (h ▸ rfl))).1 hab
  simp only [keys, List.mem_map]
  constructor
  · rintro ⟨e, he, rfl⟩
    constructor
    · rcases hk e he with h | h
      · simp at h
      · exact h
    · rintro ⟨n, hn, y, hy, hne, hyx⟩
      obtain ⟨e', he', hc'⟩ := hc y (Or.inr ⟨n, hn, hy⟩)
      have h1 : e'.1 = e.1 := hanti e' he' e he (contains_trans hc' hyx)
      exact hne (contains_antisymm hyx (h1 ▸ hc'))
  · rintro ⟨⟨n, hn, hx⟩, hmax⟩
    obtain ⟨e, he, hc'⟩ := hc x (Or.inr ⟨n, hn, hx⟩)
    refine ⟨e, he, ?_⟩
    by_contra hne
    rcases hk e he with h | ⟨n', hn', hx'⟩
    · simp at h
    · exact hmax ⟨n', hn', e.1, hx', hne, hc'⟩

end Operations

theorem sorted_ext {l₁ l₂ : List MergeTreePartInfo} (h₁ : l₁.Pairwise lt) (h₂ : l₂.Pairwise lt)
    (h : ∀ a, a ∈ l₁ ↔ a ∈ l₂) : l₁ = l₂ := by
  induction l₁ generalizing l₂ with
  | nil =>
    cases l₂ with
    | nil => rfl
    | cons b l₂ => exact absurd ((h b).2 (by simp)) (by simp)
  | cons a l₁ ih =>
    cases l₂ with
    | nil => exact absurd ((h a).1 (by simp)) (by simp)
    | cons b l₂ =>
      obtain ⟨ha, h₁'⟩ := List.pairwise_cons.1 h₁
      obtain ⟨hb, h₂'⟩ := List.pairwise_cons.1 h₂
      have hab : a = b := by
        by_contra hne
        have h3 : a ∈ l₂ := by
          rcases List.mem_cons.1 ((h a).1 (by simp)) with h | h
          · exact absurd h hne
          · exact h
        have h4 : b ∈ l₁ := by
          rcases List.mem_cons.1 ((h b).2 (by simp)) with h | h
          · exact absurd h.symm hne
          · exact h
        exact lt_asymm_info (ha b h4) (hb a h3)
      subst hab
      congr 1
      apply ih h₁' h₂'
      intro c
      constructor
      · intro hc
        rcases List.mem_cons.1 ((h c).1 (List.mem_cons_of_mem _ hc)) with rfl | h'
        · exact absurd (ha c hc) (lt_irrefl_info c)
        · exact h'
      · intro hc
        rcases List.mem_cons.1 ((h c).2 (List.mem_cons_of_mem _ hc)) with rfl | h'
        · exact absurd (hb c hc) (lt_irrefl_info c)
        · exact h'

theorem sorted_keys {m : List Entry} (h : Sorted m) : (keys m).Pairwise lt := by
  unfold keys
  rw [List.pairwise_map]
  exact h

/-- C2. The active set is exactly the set of maximal elements of everything added.
For a list of non-empty names that all parse, construction succeeds and is the
same as adding the names one at a time to the empty registry; an identity is a
key of the registry exactly when it is the identity of a name of the list and no
other identity of the list contains it; and the keys are the same list for every
permutation of the names. -/
theorem construct_active_set_maximal (fromPartName : String → Nat → Option MergeTreePartInfo)
    (format_version : Nat) (names : List String)
    (hp : ∀ n ∈ names, n ≠ "" ∧ ∃ x, fromPartName n format_version = some x) :
    (construct fromPartName format_version names).1 = .ok () ∧
    (construct fromPartName format_version names).2 =
      names.foldl (fun s n => (add fromPartName s n).2) ⟨format_version, []⟩ ∧
    (∀ x, x ∈ keys (construct fromPartName format_version names).2.part_info_to_name ↔
      (∃ n ∈ names, fromPartName n format_version = some x) ∧
      ¬ ∃ n ∈ names, ∃ y, fromPartName n format_version = some y ∧ y ≠ x ∧ contains y x) ∧
    (∀ names', names.Perm names' →
      keys (construct fromPartName format_version names').2.part_info_to_name =
        keys (construct fromPartName format_version names).2.part_info_to_name) := by
  refine ⟨(addAll_spec fromPartName names ⟨format_version, []⟩ inv_nil hp).1,
    addAll_eq_foldl fromPartName names ⟨format_version, []⟩ (fun n hn => (hp n hn).2),
    construct_keys_iff fromPartName format_version names hp, ?_⟩
  intro names' hperm
  have hp' : ∀ n ∈ names', n ≠ "" ∧ ∃ x, fromPartName n format_version = some x :=
    fun n hn => hp n (hperm.mem_iff.2 hn)
  have hi := (addAll_spec fromPartName names ⟨format_version, []⟩ inv_nil hp).2.2.1
  have hi' := (addAll_spec fromPartName names' ⟨format_version, []⟩ inv_nil hp').2.2.1
  apply sorted_ext (sorted_keys hi'.sorted) (sorted_keys hi.sorted)
  intro x
  refine (construct_keys_iff fromPartName format_version names' hp' x).trans
    (Iff.trans ?_ (construct_keys_iff fromPartName format_version names hp x).symm)
  simp only [hperm.mem_iff]

theorem construct_active_set_maximal_witness :
    (∀ n ∈ ["p_1_1_0", "p_1_2_1", "p_2_2_0"],
      n ≠ "" ∧ ∃ x, exampleFromPartName n 0 = some x) ∧
    (construct exampleFromPartName 0 ["p_1_1_0", "p_1_2_1", "p_2_2_0"]).1 = .ok () ∧
    (construct exampleFromPartName 0 ["p_1_1_0", "p_1_2_1", "p_2_2_0"]).2 =
      ["p_1_1_0", "p_1_2_1", "p_2_2_0"].foldl
        (fun s n => (add exampleFromPartName s n).2) ⟨0, []⟩ ∧
    (∀ x, x ∈ keys (construct exampleFromPartName 0
        ["p_1_1_0", "p_1_2_1", "p_2_2_0"]).2.part_info_to_name ↔
      (∃ n ∈ ["p_1_1_0", "p_1_2_1", "p_2_2_0"], exampleFromPartName n 0 = some x) ∧
      ¬ ∃ n ∈ ["p_1_1_0", "p_1_2_1", "p_2_2_0"], ∃ y,
        exampleFromPartName n 0 = some y ∧ y ≠ x ∧ contains y x) ∧
    (∀ names', List.Perm ["p_1_1_0", "p_1_2_1", "p_2_2_0"] names' →
      keys (construct exampleFromPartName 0 names').2.part_info_to_name =
        keys (construct exampleFromPartName 0
          ["p_1_1_0", "p_1_2_1", "p_2_2_0"]).2.part_info_to_name) :=
  ⟨by simp [exampleFromPartName],
    construct_active_set_maximal exampleFromPartName 0 ["p_1_1_0", "p_1_2_1", "p_2_2_0"]
      (by simp [exampleFromPartName])⟩

/-! ## The containing lookup on reachable states -/

theorem isLowerBound_of_head? {m : List Entry} (hs : Sorted m) {x : MergeTreePartInfo}
    {e : Entry} (h : (lower_bound m x).2.head? = some e) : IsLowerBound m x e := by
  refine ⟨mem_snd_of_head? h, lower_bound_snd_not_lt hs x e (mem_of_head? h), ?_⟩
  intro a ha hax
  rw [← lower_bound_append m x] at ha
  rcases List.mem_append.1 ha with ha | ha
  · exact absurd (lower_bound_fst_lt m x a ha) hax
  · have hs2 := sorted_of_append_right (lower_bound_sorted hs x)
    cases hr : (lower_bound m x).2 with
    | nil => rw [hr] at h; simp at h
    | cons l rest =>
      rw [hr] at h ha hs2
      simp only [List.head?_cons, Option.some.injEq] at h
      subst h
      rcases List.mem_cons.1 ha with rfl | ha
      · exact lt_irrefl_info _
      · exact lt_asymm_info (sorted_head_lt hs2 a ha)

theorem head?_of_isLowerBound {m : List Entry} (hs : Sorted m) {x : MergeTreePartInfo}
    {l : Entry} (h : IsLowerBound m x l) : (lower_bound m x).2.head? = some l := by
  obtain ⟨hl, hlx, hmin⟩ := h
  rw [← lower_bound_append m x] at hl
  rcases List.mem_append.1 hl with hl | hl
  · exact absurd (lower_bound_fst_lt m x l hl) hlx
  · have hs2 := sorted_of_append_right (lower_bound_sorted hs x)
    have hge := lower_bound_snd_not_lt hs x
    cases hr : (lower_bound m x).2 with
    | nil => rw [hr] at hl; simp at hl
    | cons e rest =>
      rw [hr] at hl hs2 hge
      rcases List.mem_cons.1 hl with rfl | hl
      · rfl
      · have he : e ∈ m := by
          rw [← lower_bound_append m x, hr]; simp
        exact absurd (sorted_head_lt hs2 l hl) (hmin e he (hge e (by simp)))

theorem isPredecessor_of_head? {m : List Entry} (hs : Sorted m) {x : MergeTreePartInfo}
    {p : Entry} (h : (lower_bound m x).1.reverse.head? = some p) : IsPredecessor m x p := by
  refine ⟨mem_fst_of_head? h,
    lower_bound_fst_lt m x p (List.mem_reverse.1 (mem_of_head? h)), ?_⟩
  intro a ha hax
  rw [← lower_bound_append m x] at ha
  rcases List.mem_append.1 ha with ha | ha
  · have hs1 := sorted_of_append_left (lower_bound_sorted hs x)
    cases hr : (lower_bound m x).1.reverse with
    | nil => rw [hr] at h; simp at h
    | cons q rest =>
      rw [hr] at h
      simp only [List.head?_cons, Option.some.injEq] at h
      subst h
      have hb := eq_append_of_reverse_eq_cons hr
      rw [hb] at ha hs1
      rcases List.mem_append.1 ha with ha | ha
      · exact lt_asymm_info ((List.pairwise_append.1 hs1).2.2 a ha q (by simp))
      · simp at ha; subst ha; exact lt_irrefl_info _
  · exact absurd hax (lower_bound_snd_not_lt hs x a ha)

/-- C3, as amended. On a reachable state and for a name that parses,
`getContainingPart` returns a non-empty string exactly when some active entry
contains the identity of the name; the entry may be that identity itself. -/
theorem getContainingPart_nonempty_iff (fromPartName : String → Nat → Option MergeTreePartInfo)
    (self : ActiveDataPartSet) (part_name : String) (x : MergeTreePartInfo)
    (h : Reachable fromPartName self)
    (hx : fromPartName part_name self.format_version = some x) :
    (∃ r, getContainingPart fromPartName self part_name = .ok r ∧ r ≠ "") ↔
      ∃ e ∈ self.part_info_to_name, contains e.1 x := by
  have hi := reachable_inv fromPartName h
  rw [← getContainingPartImpl_ne_empty_iff hi x]
  simp [getContainingPart, hx]

theorem getContainingPart_nonempty_iff_witness :
    Reachable exampleFromPartName exampleMerged ∧
    exampleFromPartName "p_1_1_0" exampleMerged.format_version = some ⟨"p", 1, 1, 0, 0⟩ ∧
    ((∃ r, getContainingPart exampleFromPartName exampleMerged "p_1_1_0" = .ok r ∧ r ≠ "") ↔
      ∃ e ∈ exampleMerged.part_info_to_name, contains e.1 ⟨"p", 1, 1, 0, 0⟩) :=
  ⟨exampleMerged_reachable, rfl,
    getContainingPart_nonempty_iff exampleFromPartName exampleMerged "p_1_1_0"
      ⟨"p", 1, 1, 0, 0⟩ exampleMerged_reachable rfl⟩

/-- C3, the claim as stated fails. In the reachable state of scenario 2 the lookup
of the active name `p_1_2_1` returns that name, a non-empty string, although no
active entry other than its own identity contains it. -/
theorem getContainingPart_strict_counterexample :
    Reachable exampleFromPartName exampleMerged ∧
    exampleFromPartName "p_1_2_1" exampleMerged.format_version = some ⟨"p", 1, 2, 1, 0⟩ ∧
    getContainingPart exampleFromPartName exampleMerged "p_1_2_1" = .ok "p_1_2_1" ∧
    "p_1_2_1" ≠ "" ∧
    ¬ ∃ e ∈ exampleMerged.part_info_to_name,
        e.1 ≠ ⟨"p", 1, 2, 1, 0⟩ ∧ contains e.1 ⟨"p", 1, 2, 1, 0⟩ :=
  ⟨exampleMerged_reachable, rfl, rfl, by decide, by decide⟩

/-- C4. Lookup never invents a result. On every sorted map, if the containing lookup
of `x` returns a non-empty name, that name is the stored name of an entry that
contains `x`, and the entry is the lower bound of `x`, or it is the entry just
before the lower bound and then the lower bound does not contain `x`. -/
theorem getContainingPartImpl_never_invents (m : List Entry) (x : MergeTreePartInfo)
    (hs : Sorted m) (h : getContainingPartImpl m x ≠ "") :
    ∃ e ∈ m, e.2 = getContainingPartImpl m x ∧ contains e.1 x ∧
      (IsLowerBound m x e ∨
        (IsPredecessor m x e ∧ ∀ l, IsLowerBound m x l → ¬ contains l.1 x)) := by
  rcases getContainingPartImpl_sound h with ⟨e, he, hc, hn⟩ | ⟨hno, p, hp, hc, hn⟩
  · exact ⟨e, mem_snd_of_head? he, hn.symm, hc, Or.inl (isLowerBound_of_head? hs he)⟩
  · refine ⟨p, mem_fst_of_head? hp, hn.symm, hc, Or.inr ⟨isPredecessor_of_head? hs hp, ?_⟩⟩
    intro l hl
    exact hno l (head?_of_isLowerBound hs hl)

theorem getContainingPartImpl_never_invents_witness :
    Sorted exampleMerged.part_info_to_name ∧
    getContainingPartImpl exampleMerged.part_info_to_name ⟨"p", 2, 2, 0, 0⟩ ≠ "" ∧
    ∃ e ∈ exampleMerged.part_info_to_name,
      e.2 = getContainingPartImpl exampleMerged.part_info_to_name ⟨"p", 2, 2, 0, 0⟩ ∧
      contains e.1 ⟨"p", 2, 2, 0, 0⟩ ∧
      (IsLowerBound exampleMerged.part_info_to_name ⟨"p", 2, 2, 0, 0⟩ e ∨
        (IsPredecessor exampleMerged.part_info_to_name ⟨"p", 2, 2, 0, 0⟩ e ∧
          ∀ l, IsLowerBound exampleMerged.part_info_to_name ⟨"p", 2, 2, 0, 0⟩ l →
            ¬ contains l.1 ⟨"p", 2, 2, 0, 0⟩)) :=
  ⟨by decide, by decide,
    getContainingPartImpl_never_invents exampleMerged.part_info_to_name ⟨"p", 2, 2, 0, 0⟩
      (by decide) (by decide)⟩

/-- C5. The two-neighbour probe is complete. On every reachable state, if some active
entry contains `x` (possibly `x` itself), the containing lookup of `x` returns a
non-empty name; it returns the empty string only when no active entry contains
`x`. -/
theorem getContainingPartImpl_complete_of_reachable
    (fromPartName : String → Nat → Option MergeTreePartInfo) (self : ActiveDataPartSet)
    (x : MergeTreePartInfo) (h : Reachable fromPartName self) :
    ((∃ e ∈ self.part_info_to_name, contains e.1 x) →
      getContainingPartImpl self.part_info_to_name x ≠ "") ∧
    (getContainingPartImpl self.part_info_to_name x = "" →
      ∀ e ∈ self.part_info_to_name, ¬ contains e.1 x) := by
  have hi := reachable_inv fromPartName h
  exact ⟨fun ⟨e, he, hc⟩ => getContainingPartImpl_complete hi he hc,
    fun h0 => not_contained_of_lookup_empty hi h0⟩

theorem getContainingPartImpl_complete_of_reachable_witness :
    Reachable exampleFromPartName exampleMerged ∧
    ((∃ e ∈ exampleMerged.part_info_to_name, contains e.1 ⟨"p", 1, 1, 0, 0⟩) →
      getContainingPartImpl exampleMerged.part_info_to_name ⟨"p", 1, 1, 0, 0⟩ ≠ "") ∧
    (getContainingPartImpl exampleMerged.part_info_to_name ⟨"p", 1, 1, 0, 0⟩ = "" →
      ∀ e ∈ exampleMerged.part_info_to_name, ¬ contains e.1 ⟨"p", 1, 1, 0, 0⟩) :=
  ⟨exampleMerged_reachable,
    getContainingPartImpl_complete_of_reachable exampleFromPartName exampleMerged
      ⟨"p", 1, 1, 0, 0⟩ exampleMerged_reachable⟩

/-! ## The coverage query -/

theorem expandLeft_eq_expandRight (x : MergeTreePartInfo) (l : List Entry) :
    expandLeft x l = expandRight x l := by
  induction l with
  | nil => rfl
  | cons e rest ih => simp [expandLeft, expandRight, ih]

theorem covered_append (x : MergeTreePartInfo) (l r : List Entry) :
    covered x (l ++ r) = covered x l ++ covered x r := by
  simp [covered]

theorem covered_reverse (x : MergeTreePartInfo) (l : List Entry) :
    covered x l.reverse = (covered x l).reverse := by
  simp [covered, List.filter_reverse]

theorem expandRight_eq_covered {x : MergeTreePartInfo} {l : List Entry}
    (hx : ∀ e ∈ l, ¬ contains e.1 x)
    (h : l.Pairwise (fun a b => contains x b.1 → contains x a.1)) :
    expandRight x l = some (covered x l) := by
  induction l with
  | nil => rfl
  | cons e rest ih =>
    obtain ⟨h1, h2⟩ := List.pairwise_cons.1 h
    have hex := hx e (by simp)
    by_cases hc : contains x e.1
    · have := ih (fun a ha => hx a (List.mem_cons_of_mem _ ha)) h2
      simp [expandRight, hc, this, covered]
    · have : covered x rest = [] := by
        unfold covered
        rw [List.filter_eq_nil_iff]
        intro a ha
        simpa using fun hca => hc (h1 a ha hca)
      have h3 : covered x (e :: rest) = covered x rest := by simp [covered, hc]
      rw [h3, this]
      simp [expandRight, hc, hex]

theorem getPartsCoveredBy_eq_covered {self : ActiveDataPartSet}
    (hi : Inv self.part_info_to_name) {x : MergeTreePartInfo}
    (hx : ∀ e ∈ self.part_info_to_name, ¬ contains e.1 x) :
    getPartsCoveredBy self x = (covered x self.part_info_to_name).map (fun kv => kv.2) := by
  have hl : expandLeft x (lower_bound self.part_info_to_name x).1.reverse =
      some (covered x (lower_bound self.part_info_to_name x).1).reverse := by
    rw [expandLeft_eq_expandRight, ← covered_reverse]
    apply expandRight_eq_covered _ (left_closed hi.sorted x)
    intro e he
    exact hx e (by
      rw [← lower_bound_append self.part_info_to_name x]
      exact List.mem_append_left _ (List.mem_reverse.1 he))
  have hr : expandRight x (lower_bound self.part_info_to_name x).2 =
      some (covered x (lower_bound self.part_info_to_name x).2) := by
    apply expandRight_eq_covered _ (right_closed hi.sorted hi.antichain hx)
    intro e he
    exact hx e (by
      rw [← lower_bound_append self.part_info_to_name x]
      exact List.mem_append_right _ he)
  unfold getPartsCoveredBy
  simp only [hl, hr, List.reverse_reverse]
  rw [← covered_append, lower_bound_append]

theorem contains_or_of_rangeInside {x e : MergeTreePartInfo} (h : rangeInside x e) :
    contains x e ∨ contains e x := by
  obtain ⟨hp, h1, h2⟩ := h
  have : containsBlocks x e ∨ containsBlocks e x := by unfold containsBlocks; omega
  exact this.imp (fun h => ⟨hp.symm, h⟩) (fun h => ⟨hp, h⟩)

theorem rangeInside_of_contains {x e : MergeTreePartInfo} (h : contains x e) :
    rangeInside x e :=
  ⟨h.1.symm, h.2.1, h.2.2.1⟩

theorem covered_eq_filter_rangeInside {m : List Entry} {x : MergeTreePartInfo}
    (hx : ∀ e ∈ m, ¬ contains e.1 x) :
    covered x m = m.filter (fun e => decide (rangeInside x e.1)) := by
  unfold covered
  apply List.filter_congr
  intro e he
  have : contains x e.1 ↔ rangeInside x e.1 :=
    ⟨rangeInside_of_contains, fun h => (contains_or_of_rangeInside h).resolve_right (hx e he)⟩
  simp [this]

theorem getPartsCoveredBy_of_strictly_contained {self : ActiveDataPartSet}
    (hi : Inv self.part_info_to_name) {x : MergeTreePartInfo} {e : Entry}
    (he : e ∈ self.part_info_to_name) (hne : e.1 ≠ x) (hc : contains e.1 x) :
    getPartsCoveredBy self x = [] := by
  unfold getPartsCoveredBy
  rcases container_adjacent hi.sorted hi.antichain he hc with h | ⟨p, hp, hpc, hpx⟩
  · have hr : expandRight x (lower_bound self.part_info_to_name x).2 = none := by
      cases ha : (lower_bound self.part_info_to_name x).2 with
      | nil => rw [ha] at h; simp at h
      | cons l rest =>
        rw [ha] at h
        simp only [List.head?_cons, Option.some.injEq] at h
        subst h
        have : ¬ contains x l.1 := fun h' => hne (contains_antisymm hc h')
        simp [expandRight, this, hc]
    simp only [hr]
    cases expandLeft x (lower_bound self.part_info_to_name x).1.reverse <;> rfl
  · have hl : expandLeft x (lower_bound self.part_info_to_name x).1.reverse = none := by
      cases hb : (lower_bound self.part_info_to_name x).1.reverse with
      | nil => rw [hb] at hp; simp at hp
      | cons q rest =>
        rw [hb] at hp
        simp only [List.head?_cons, Option.some.injEq] at hp
        subst hp
        have : ¬ contains x q.1 := fun h' =>
          lt_irrefl_info x ((contains_antisymm hpc h') ▸ hpx)
        simp [expandLeft, this, hpc]
    simp only [hl]

/-- C6. On a reachable state, for an identity `x` that no active entry contains,
`getPartsCoveredBy` returns the names of exactly the active entries of the
partition of `x` whose block range lies inside the range of `x`, each once and in
ascending key order. -/
theorem getPartsCoveredBy_exact (fromPartName : String → Nat → Option MergeTreePartInfo)
    (self : ActiveDataPartSet) (x : MergeTreePartInfo) (h : Reachable fromPartName self)
    (hx : ∀ e ∈ self.part_info_to_name, ¬ contains e.1 x) :
    getPartsCoveredBy self x =
      (self.part_info_to_name.filter (fun e => decide (rangeInside x e.1))).map
        (fun kv => kv.2) ∧
    Sorted (self.part_info_to_name.filter (fun e => decide (rangeInside x e.1))) := by
  have hi := reachable_inv fromPartName h
  refine ⟨?_, hi.sorted.sublist (List.filter_sublist _)⟩
  rw [getPartsCoveredBy_eq_covered hi hx, covered_eq_filter_rangeInside hx]

theorem getPartsCoveredBy_exact_witness :
    Reachable exampleFromPartName exampleTwo ∧
    (∀ e ∈ exampleTwo.part_info_to_name, ¬ contains e.1 ⟨"p", 1, 2, 1, 0⟩) ∧
    getPartsCoveredBy exampleTwo ⟨"p", 1, 2, 1, 0⟩ =
      (exampleTwo.part_info_to_name.filter
        (fun e => decide (rangeInside ⟨"p", 1, 2, 1, 0⟩ e.1))).map (fun kv => kv.2) ∧
    Sorted (exampleTwo.part_info_to_name.filter
      (fun e => decide (rangeInside ⟨"p", 1, 2, 1, 0⟩ e.1))) :=
  ⟨exampleTwo_reachable, by decide,
    getPartsCoveredBy_exact exampleFromPartName exampleTwo ⟨"p", 1, 2, 1, 0⟩
      exampleTwo_reachable (by decide)⟩

/-- C7, as amended. On a reachable state, if some active entry other than `x`
itself contains `x`, then `getPartsCoveredBy` returns the empty sequence. -/
theorem getPartsCoveredBy_empty_of_strictly_contained
    (fromPartName : String → Nat → Option MergeTreePartInfo) (self : ActiveDataPartSet)
    (x : MergeTreePartInfo) (h : Reachable fromPartName self)
    (hx : ∃ e ∈ self.part_info_to_name, e.1 ≠ x ∧ contains e.1 x) :
    getPartsCoveredBy self x = [] := by
  obtain ⟨e, he, hne, hc⟩ := hx
  exact getPartsCoveredBy_of_strictly_contained (reachable_inv fromPartName h) he hne hc

theorem getPartsCoveredBy_empty_of_strictly_contained_witness :
    Reachable exampleFromPartName exampleMerged ∧
    (∃ e ∈ exampleMerged.part_info_to_name,
      e.1 ≠ ⟨"p", 1, 1, 0, 0⟩ ∧ contains e.1 ⟨"p", 1, 1, 0, 0⟩) ∧
    getPartsCoveredBy exampleMerged ⟨"p", 1, 1, 0, 0⟩ = [] :=
  ⟨exampleMerged_reachable, by decide,
    getPartsCoveredBy_empty_of_strictly_contained exampleFromPartName exampleMerged
      ⟨"p", 1, 1, 0, 0⟩ exampleMerged_reachable (by decide)⟩

/-- C7, the claim as stated fails. In the reachable state of scenario 2 the active
entry `p_1_2_1` contains its own identity, and `getPartsCoveredBy` of that
identity returns the name of the entry, not the empty sequence. -/
theorem getPartsCoveredBy_reflexive_counterexample :
    Reachable exampleFromPartName exampleMerged ∧
    (∃ e ∈ exampleMerged.part_info_to_name, contains e.1 ⟨"p", 1, 2, 1, 0⟩) ∧
    getPartsCoveredBy exampleMerged ⟨"p", 1, 2, 1, 0⟩ = ["p_1_2_1"] ∧
    getPartsCoveredBy exampleMerged ⟨"p", 1, 2, 1, 0⟩ ≠ [] :=
  ⟨exampleMerged_reachable, by decide, by decide, by decide⟩

/-! ## Idempotence, counting, failure -/

theorem goRight_sublist (x : MergeTreePartInfo) (l : List Entry) :
    (goRight x l).Sublist l := by
  induction l with
  | nil => exact List.Sublist.refl _
  | cons e rest ih =>
    by_cases h : contains x e.1
    · simp only [goRight, h, if_true]; exact ih.cons _
    · simp only [goRight, h, if_false]; exact List.Sublist.refl _

theorem goRight_head? (x : MergeTreePartInfo) (l : List Entry) :
    ∀ e, (goRight x l).head? = some e → ¬ contains x e.1 := by
  induction l with
  | nil => simp [goRight]
  | cons a rest ih =>
    by_cases h : contains x a.1
    · simpa only [goRight, h, if_true] using ih
    · intro e he
      simp only [goRight, h, if_false, List.head?_cons, Option.some.injEq] at he
      exact he ▸ h

theorem goRight_of_head? {x : MergeTreePartInfo} {l : List Entry}
    (h : ∀ e, l.head? = some e → ¬ contains x e.1) : goRight x l = l := by
  cases l with
  | nil => rfl
  | cons a rest => simp [goRight, h a rfl]

theorem goRight_idem (x : MergeTreePartInfo) (l : List Entry) :
    goRight x (goRight x l) = goRight x l :=
  goRight_of_head? (goRight_head? x l)

theorem addInfo_eq_emplace {m : List Entry} {x : MergeTreePartInfo} (name : String)
    (h : getContainingPartImpl m x = "") :
    addInfo m x name =
      emplace ((goRight x (lower_bound m x).1.reverse).reverse ++
        goRight x (lower_bound m x).2) x name := by
  simp only [addInfo, h, ne_eq, not_true_eq_false, if_false, goLeft_eq_goRight]

/-- The effect of `addInfo` on any sorted map when the lookup finds nothing: the
two scans, then the new entry between what they leave. -/
theorem addInfo_of_lookup_empty {m : List Entry} (hs : Sorted m) {x : MergeTreePartInfo}
    (name : String) (h : getContainingPartImpl m x = "") :
    addInfo m x name =
      (goRight x (lower_bound m x).1.reverse).reverse ++
        (x, name) :: goRight x (lower_bound m x).2 := by
  rw [addInfo_eq_emplace name h]
  apply emplace_of_split
  · intro e he
    exact lower_bound_fst_lt m x e
      (List.mem_reverse.1 ((goRight_sublist x _).subset (List.mem_reverse.1 he)))
  · have hs2 : Sorted (goRight x (lower_bound m x).2) :=
      (sorted_of_append_right (lower_bound_sorted hs x)).sublist (goRight_sublist x _)
    have hge : ∀ e ∈ goRight x (lower_bound m x).2, ¬ lt e.1 x := fun e he =>
      lower_bound_snd_not_lt hs x e ((goRight_sublist x _).subset he)
    have hh := goRight_head? x (lower_bound m x).2
    generalize goRight x (lower_bound m x).2 = r at hs2 hge hh
    cases r with
    | nil => simp
    | cons a rest =>
      have ha : lt x a.1 := by
        by_contra h3
        exact hh a rfl ((eq_of_not_lt (hge a (by simp)) h3) ▸ contains_refl _)
      intro e he
      rcases List.mem_cons.1 he with rfl | he
      · exact ha
      · exact lt_trans_info ha (sorted_head_lt hs2 e he)

theorem addInfo_idem {m : List Entry} (hs : Sorted m) (x : MergeTreePartInfo)
    (name : String) : addInfo (addInfo m x name) x name = addInfo m x name := by
  by_cases h : getContainingPartImpl m x = ""
  · have h1 := addInfo_of_lookup_empty hs name h
    by_cases h' : getContainingPartImpl (addInfo m x name) x = ""
    · have hlb : lower_bound (addInfo m x name) x =
          ((goRight x (lower_bound m x).1.reverse).reverse,
            (x, name) :: goRight x (lower_bound m x).2) := by
        rw [h1]
        apply lower_bound_of_split
        · intro e he
          exact lower_bound_fst_lt m x e
            (List.mem_reverse.1 ((goRight_sublist x _).subset (List.mem_reverse.1 he)))
        · intro e he
          simp only [List.head?_cons, Option.some.injEq] at he
          exact he ▸ lt_irrefl_info x
      have hxx : contains x x := contains_refl x
      have h2 : addInfo (addInfo m x name) x name =
          emplace ((goRight x (lower_bound m x).1.reverse).reverse ++
            goRight x (lower_bound m x).2) x name := by
        rw [addInfo_eq_emplace name h', hlb]
        simp only [List.reverse_reverse, goRight_idem]
        simp [goRight, hxx, goRight_idem]
      rw [h2, ← addInfo_eq_emplace name h]
    · exact addInfo_of_contained name h'
  · rw [addInfo_of_contained name h, addInfo_of_contained name h]

/-- C8. Idempotence of `add`: on every sorted map, performing `add(n)` twice in a row
leaves the same registry, the same `getParts()` list and the same `size()` as
performing it once. -/
theorem add_idempotent (fromPartName : String → Nat → Option MergeTreePartInfo)
    (self : ActiveDataPartSet) (name : String) (hs : Sorted self.part_info_to_name) :
    (add fromPartName (add fromPartName self name).2 name).2 =
      (add fromPartName self name).2 ∧
    getParts (add fromPartName (add fromPartName self name).2 name).2 =
      getParts (add fromPartName self name).2 ∧
    size (add fromPartName (add fromPartName self name).2 name).2 =
      size (add fromPartName self name).2 := by
  have key : (add fromPartName (add fromPartName self name).2 name).2 =
      (add fromPartName self name).2 := by
    cases hp : fromPartName name self.format_version with
    | none =>
      rw [add_of_not_parse fromPartName hp]
      simp only
      rw [add_of_not_parse fromPartName hp]
    | some x =>
      rw [add_of_parse fromPartName hp]
      have hp' : fromPartName name
          (ActiveDataPartSet.mk self.format_version
            (addInfo self.part_info_to_name x name)).format_version = some x := hp
      rw [add_of_parse fromPartName hp']
      simp only [addInfo_idem hs]
  exact ⟨key, by rw [key], by rw [key]⟩

theorem add_idempotent_witness :
    Sorted exampleTwo.part_info_to_name ∧
    (add exampleFromPartName (add exampleFromPartName exampleTwo "p_1_2_1").2 "p_1_2_1").2 =
      (add exampleFromPartName exampleTwo "p_1_2_1").2 ∧
    getParts (add exampleFromPartName
        (add exampleFromPartName exampleTwo "p_1_2_1").2 "p_1_2_1").2 =
      getParts (add exampleFromPartName exampleTwo "p_1_2_1").2 ∧
    size (add exampleFromPartName (add exampleFromPartName exampleTwo "p_1_2_1").2 "p_1_2_1").2 =
      size (add exampleFromPartName exampleTwo "p_1_2_1").2 :=
  ⟨by decide, add_idempotent exampleFromPartName exampleTwo "p_1_2_1" (by decide)⟩

/-- C9. Count conservation: on a reachable state, for a name that parses to an
identity `x` that no active entry contains, if exactly `k` active entries are
contained in `x`, then `size()` after `add` is `size()` before, plus 1, minus
`k`. -/
theorem add_size_conservation (fromPartName : String → Nat → Option MergeTreePartInfo)
    (self : ActiveDataPartSet) (name : String) (x : MergeTreePartInfo) (k : Nat)
    (h : Reachable fromPartName self)
    (hp : fromPartName name self.format_version = some x)
    (hx : ∀ e ∈ self.part_info_to_name, ¬ contains e.1 x)
    (hk : (self.part_info_to_name.filter (fun e => decide (contains x e.1))).length = k) :
    (size (add fromPartName self name).2 : Int) = (size self : Int) + 1 - (k : Int) := by
  have hi := reachable_inv fromPartName h
  rw [add_of_parse fromPartName hp]
  have h1 := length_addInfo_of_not_contained hi.sorted hi.antichain name hx
  have h2 := length_kept_add_covered x self.part_info_to_name
  unfold covered at h2
  rw [hk] at h2
  simp only [size]
  omega

theorem add_size_conservation_witness :
    Reachable exampleFromPartName exampleTwo ∧
    exampleFromPartName "p_1_2_1" exampleTwo.format_version = some ⟨"p", 1, 2, 1, 0⟩ ∧
    (∀ e ∈ exampleTwo.part_info_to_name, ¬ contains e.1 ⟨"p", 1, 2, 1, 0⟩) ∧
    (exampleTwo.part_info_to_name.filter
      (fun e => decide (contains ⟨"p", 1, 2, 1, 0⟩ e.1))).length = 2 ∧
    (size (add exampleFromPartName exampleTwo "p_1_2_1").2 : Int) =
      (size exampleTwo : Int) + 1 - ((2 : Nat) : Int) :=
  ⟨exampleTwo_reachable, rfl, by decide, by decide,
    add_size_conservation exampleFromPartName exampleTwo "p_1_2_1" ⟨"p", 1, 2, 1, 0⟩ 2
      exampleTwo_reachable rfl (by decide) (by decide)⟩

/-- C10. The call `add` fails exactly when the name does not parse; a failed call
leaves the registry as it was; when the name parses the call does not fail. -/
theorem add_fails_iff_malformed (fromPartName : String → Nat → Option MergeTreePartInfo)
    (self : ActiveDataPartSet) (name : String) :
    ((add fromPartName self name).1 = .error .BAD_DATA_PART_NAME ↔
      fromPartName name self.format_version = none) ∧
    (fromPartName name self.format_version = none →
      (add fromPartName self name).2 = self) ∧
    (∀ x, fromPartName name self.format_version = some x →
      (add fromPartName self name).1 = .ok ()) := by
  cases hp : fromPartName name self.format_version with
  | none =>
    rw [add_of_not_parse fromPartName hp]
    simp
  | some x =>
    rw [add_of_parse fromPartName hp]
    simp

/-! ## Listing, exact effect of an insertion -/

/-- C11. Consistency: on every registry state `size()` is the length of the list
that `getParts()` returns. -/
theorem size_eq_length_getParts (self : ActiveDataPartSet) :
    size self = (getParts self).length := by
  simp [size, getParts]

theorem eq_of_contains_of_antichain {m : List Entry} (ha : Antichain m) {a b : Entry}
    (hma : a ∈ m) (hmb : b ∈ m) (hc : contains a.1 b.1) : a = b := by
  by_contra hne
  have hsym : Symmetric (fun a b : Entry => ¬ contains a.1 b.1 ∧ ¬ contains b.1 a.1) :=
    fun _ _ h => ⟨h.2, h.1⟩
  exact (List.Pairwise.forall hsym ha hma hmb hne).1 hc

theorem sorted_addInfo_of_not_contained {m : List Entry} (hs : Sorted m) (ha : Antichain m)
    {x : MergeTreePartInfo} (name : String) (hx : ∀ e ∈ m, ¬ contains e.1 x) :
    Sorted (addInfo m x name) := by
  rw [addInfo_of_not_contained hs ha name hx]
  have hs' := lower_bound_sorted hs x
  obtain ⟨hs1, hs2, hs3⟩ := List.pairwise_append.1 hs'
  refine List.pairwise_append.2 ⟨hs1.sublist (List.filter_sublist _), ?_, ?_⟩
  · refine List.pairwise_cons.2 ⟨?_, hs2.sublist (List.filter_sublist _)⟩
    intro e he
    obtain ⟨he1, he2⟩ := mem_kept.1 he
    by_contra h3
    exact he2 ((eq_of_not_lt (lower_bound_snd_not_lt hs x e he1) h3) ▸ contains_refl _)
  · intro p hp q hq
    rcases List.mem_cons.1 hq with rfl | hq
    · exact lower_bound_fst_lt m x p (mem_kept.1 hp).1
    · exact hs3 p (mem_kept.1 hp).1 q (mem_kept.1 hq).1

/-- C12. Exact effect of a non-redundant insert: on a reachable state, for a name
that parses to an identity `x` that no active entry contains, `add` succeeds and
the registry after it consists of exactly the old entries that `x` does not
contain, each with its old name, and the one new entry of `x` with the name; the
keys are still strictly ascending. -/
theorem add_exact_effect (fromPartName : String → Nat → Option MergeTreePartInfo)
    (self : ActiveDataPartSet) (name : String) (x : MergeTreePartInfo)
    (h : Reachable fromPartName self)
    (hp : fromPartName name self.format_version = some x)
    (hx : ∀ e ∈ self.part_info_to_name, ¬ contains e.1 x) :
    (add fromPartName self name).1 = .ok () ∧
    Sorted (add fromPartName self name).2.part_info_to_name ∧
    ∀ e, e ∈ (add fromPartName self name).2.part_info_to_name ↔
      (e = (x, name) ∨ (e ∈ self.part_info_to_name ∧ ¬ contains x e.1)) := by
  have hi := reachable_inv fromPartName h
  rw [add_of_parse fromPartName hp]
  exact ⟨rfl, sorted_addInfo_of_not_contained hi.sorted hi.antichain name hx,
    mem_addInfo_of_not_contained hi.sorted hi.antichain name hx⟩

theorem add_exact_effect_witness :
    Reachable exampleFromPartName exampleTwo ∧
    exampleFromPartName "p_1_2_1" exampleTwo.format_version = some ⟨"p", 1, 2, 1, 0⟩ ∧
    (∀ e ∈ exampleTwo.part_info_to_name, ¬ contains e.1 ⟨"p", 1, 2, 1, 0⟩) ∧
    (add exampleFromPartName exampleTwo "p_1_2_1").1 = .ok () ∧
    Sorted (add exampleFromPartName exampleTwo "p_1_2_1").2.part_info_to_name ∧
    ∀ e, e ∈ (add exampleFromPartName exampleTwo "p_1_2_1").2.part_info_to_name ↔
      (e = (⟨"p", 1, 2, 1, 0⟩, "p_1_2_1") ∨
        (e ∈ exampleTwo.part_info_to_name ∧ ¬ contains ⟨"p", 1, 2, 1, 0⟩ e.1)) :=
  ⟨exampleTwo_reachable, rfl, by decide,
    add_exact_effect exampleFromPartName exampleTwo "p_1_2_1" ⟨"p", 1, 2, 1, 0⟩
      exampleTwo_reachable rfl (by decide)⟩

/-- C13. A redundant insert is a no-op: on a reachable state, for a name that parses
to an identity that some active entry contains, `add` succeeds and leaves the
registry as it was. -/
theorem add_redundant_noop (fromPartName : String → Nat → Option MergeTreePartInfo)
    (self : ActiveDataPartSet) (name : String) (x : MergeTreePartInfo)
    (h : Reachable fromPartName self)
    (hp : fromPartName name self.format_version = some x)
    (hc : ∃ e ∈ self.part_info_to_name, contains e.1 x) :
    add fromPartName self name = (.ok (), self) := by
  have hi := reachable_inv fromPartName h
  obtain ⟨e, he, hce⟩ := hc
  rw [add_of_parse fromPartName hp,
    addInfo_of_contained name (getContainingPartImpl_complete hi he hce)]

theorem add_redundant_noop_witness :
    Reachable exampleFromPartName exampleMerged ∧
    exampleFromPartName "p_1_1_0" exampleMerged.format_version = some ⟨"p", 1, 1, 0, 0⟩ ∧
    (∃ e ∈ exampleMerged.part_info_to_name, contains e.1 ⟨"p", 1, 1, 0, 0⟩) ∧
    add exampleFromPartName exampleMerged "p_1_1_0" = (.ok (), exampleMerged) :=
  ⟨exampleMerged_reachable, rfl, by decide,
    add_redundant_noop exampleFromPartName exampleMerged "p_1_1_0" ⟨"p", 1, 1, 0, 0⟩
      exampleMerged_reachable rfl (by decide)⟩

/-! ## Runs of `add` -/

section Operations

variable (fromPartName : String → Nat → Option MergeTreePartInfo)

theorem reachable_of_reaches {self later : ActiveDataPartSet}
    (h : Reachable fromPartName self) (hr : Reaches fromPartName self later) :
    Reachable fromPartName later := by
  induction hr with
  | refl => exact h
  | add later name _ hn hok ih => exact Reachable.add later name ih hn hok

theorem reaches_format_version {self later : ActiveDataPartSet}
    (hr : Reaches fromPartName self later) : later.format_version = self.format_version := by
  induction hr with
  | refl => rfl
  | add later name _ _ _ ih => rw [add_format_version, ih]

/-- What an entry contains at some state of a run is contained by some entry at
every later state. -/
theorem reaches_covered {self later : ActiveDataPartSet}
    (h : Reachable fromPartName self) (hr : Reaches fromPartName self later)
    {y : MergeTreePartInfo} (hy : ∃ e ∈ self.part_info_to_name, contains e.1 y) :
    ∃ e ∈ later.part_info_to_name, contains e.1 y := by
  induction hr with
  | refl => exact hy
  | add later name hr' _ hok ih =>
    obtain ⟨x, hx⟩ := parse_of_add_ok fromPartName hok
    have hi := reachable_inv fromPartName (reachable_of_reaches fromPartName h hr')
    rw [add_of_parse fromPartName hx]
    exact covered_addInfo hi x name (Or.inl ih)

/-- What an entry other than `y` contains stays contained by an entry other than
`y`, and `y` is then not a key. -/
theorem reaches_strictly_covered {self later : ActiveDataPartSet}
    (h : Reachable fromPartName self) (hr : Reaches fromPartName self later)
    {y : MergeTreePartInfo}
    (hy : ∃ e ∈ self.part_info_to_name, e.1 ≠ y ∧ contains e.1 y) :
    y ∉ keys later.part_info_to_name ∧
      ∃ e ∈ later.part_info_to_name, e.1 ≠ y ∧ contains e.1 y := by
  obtain ⟨c, hc, hne, hcy⟩ := hy
  obtain ⟨e, he, hec⟩ := reaches_covered fromPartName h hr ⟨c, hc, contains_refl c.1⟩
  have hey : contains e.1 y := contains_trans hec hcy
  have hney : e.1 ≠ y := by
    intro heq
    exact hne (contains_antisymm hcy (heq ▸ hec))
  have hi := reachable_inv fromPartName (reachable_of_reaches fromPartName h hr)
  refine ⟨?_, e, he, hney, hey⟩
  intro hk
  simp only [keys, List.mem_map] at hk
  obtain ⟨k, hk, rfl⟩ := hk
  have := eq_of_contains_of_antichain hi.antichain he hk hey
  exact hney (this ▸ rfl)

end Operations

/-- C14. Superseded is terminal: in a run of adds from the empty registry, an
identity that is a key at some state and is no longer a key at a later state is
not a key at any state after that, also not after its own name is added again,
and at each of these states an active entry other than it contains it. -/
theorem superseded_is_terminal (fromPartName : String → Nat → Option MergeTreePartInfo)
    (first later last : ActiveDataPartSet) (x : MergeTreePartInfo)
    (h : Reachable fromPartName first) (h₁ : Reaches fromPartName first later)
    (h₂ : Reaches fromPartName later last)
    (hin : x ∈ keys first.part_info_to_name) (hout : x ∉ keys later.part_info_to_name) :
    (x ∉ keys last.part_info_to_name ∧
      ∃ e ∈ last.part_info_to_name, e.1 ≠ x ∧ contains e.1 x) ∧
    ∀ name, name ≠ "" → fromPartName name last.format_version = some x →
      x ∉ keys (add fromPartName last name).2.part_info_to_name ∧
      ∃ e ∈ (add fromPartName last name).2.part_info_to_name, e.1 ≠ x ∧ contains e.1 x := by
  simp only [keys, List.mem_map] at hin
  obtain ⟨k, hk, rfl⟩ := hin
  obtain ⟨e, he, hek⟩ := reaches_covered fromPartName h h₁ ⟨k, hk, contains_refl k.1⟩
  have hne : e.1 ≠ k.1 := by
    intro heq
    exact hout (by simp only [keys, List.mem_map]; exact ⟨e, he, heq⟩)
  have hlater := reachable_of_reaches fromPartName h h₁
  refine ⟨reaches_strictly_covered fromPartName hlater h₂ ⟨e, he, hne, hek⟩, ?_⟩
  intro name hn hp
  have hok : (add fromPartName last name).1 = .ok () := by
    rw [add_of_parse fromPartName hp]
  exact reaches_strictly_covered fromPartName hlater (Reaches.add last name h₂ hn hok)
    ⟨e, he, hne, hek⟩

theorem superseded_is_terminal_witness :
    Reachable exampleFromPartName exampleTwo ∧
    Reaches exampleFromPartName exampleTwo exampleMerged ∧
    Reaches exampleFromPartName exampleMerged exampleMerged ∧
    (⟨"p", 1, 1, 0, 0⟩ : MergeTreePartInfo) ∈ keys exampleTwo.part_info_to_name ∧
    (⟨"p", 1, 1, 0, 0⟩ : MergeTreePartInfo) ∉ keys exampleMerged.part_info_to_name ∧
    ((⟨"p", 1, 1, 0, 0⟩ : MergeTreePartInfo) ∉ keys exampleMerged.part_info_to_name ∧
      ∃ e ∈ exampleMerged.part_info_to_name,
        e.1 ≠ ⟨"p", 1, 1, 0, 0⟩ ∧ contains e.1 ⟨"p", 1, 1, 0, 0⟩) ∧
    ∀ name, name ≠ "" →
      exampleFromPartName name exampleMerged.format_version = some ⟨"p", 1, 1, 0, 0⟩ →
      (⟨"p", 1, 1, 0, 0⟩ : MergeTreePartInfo) ∉
        keys (add exampleFromPartName exampleMerged name).2.part_info_to_name ∧
      ∃ e ∈ (add exampleFromPartName exampleMerged name).2.part_info_to_name,
        e.1 ≠ ⟨"p", 1, 1, 0, 0⟩ ∧ contains e.1 ⟨"p", 1, 1, 0, 0⟩ :=
  ⟨exampleTwo_reachable, Reaches.add _ _ Reaches.refl (by decide) rfl, Reaches.refl,
    by decide, by decide,
    superseded_is_terminal exampleFromPartName exampleTwo exampleMerged exampleMerged
      ⟨"p", 1, 1, 0, 0⟩ exampleTwo_reachable (Reaches.add _ _ Reaches.refl (by decide) rfl)
      Reaches.refl (by decide) (by decide)⟩

/-- C15. Uniqueness and order of the listing: on a reachable state `getParts()`
lists the names of the entries in the order of the map, the identities of these
entries are strictly ascending in the key order, so none occurs twice; and when a
name that parses to a present identity is added, the registry stays as it was, so
the entry keeps the name it had. -/
theorem getParts_strictly_ascending (fromPartName : String → Nat → Option MergeTreePartInfo)
    (self : ActiveDataPartSet) (h : Reachable fromPartName self) :
    getParts self = self.part_info_to_name.map (fun kv => kv.2) ∧
    (keys self.part_info_to_name).Pairwise lt ∧
    (keys self.part_info_to_name).Nodup ∧
    ∀ name x old, fromPartName name self.format_version = some x →
      (x, old) ∈ self.part_info_to_name →
      (add fromPartName self name).2 = self ∧
      (x, old) ∈ (add fromPartName self name).2.part_info_to_name ∧
      ∀ e ∈ (add fromPartName self name).2.part_info_to_name, e.1 = x → e.2 = old := by
  have hi := reachable_inv fromPartName h
  have hk := sorted_keys hi.sorted
  have hnd : List.Pairwise (fun a b : MergeTreePartInfo => a ≠ b)
      (keys self.part_info_to_name) := by
    refine hk.imp ?_
    intro a b hab heq
    rw [heq] at hab
    exact lt_irrefl_info b hab
  refine ⟨rfl, hk, hnd, ?_⟩
  intro name x old hp hmem
  have hsame : (add fromPartName self name).2 = self := by
    rw [add_of_parse fromPartName hp,
      addInfo_of_contained name (getContainingPartImpl_complete hi hmem (contains_refl x))]
  rw [hsame]
  refine ⟨rfl, hmem, ?_⟩
  intro e he hex
  have : e = (x, old) :=
    eq_of_contains_of_antichain hi.antichain he hmem (by rw [hex]; exact contains_refl x)
  rw [this]

theorem getParts_strictly_ascending_witness :
    Reachable exampleFromPartName exampleTwo ∧
    getParts exampleTwo = exampleTwo.part_info_to_name.map (fun kv => kv.2) ∧
    (keys exampleTwo.part_info_to_name).Pairwise lt ∧
    (keys exampleTwo.part_info_to_name).Nodup ∧
    ∀ name x old, exampleFromPartName name exampleTwo.format_version = some x →
      (x, old) ∈ exampleTwo.part_info_to_name →
      (add exampleFromPartName exampleTwo name).2 = exampleTwo ∧
      (x, old) ∈ (add exampleFromPartName exampleTwo name).2.part_info_to_name ∧
      ∀ e ∈ (add exampleFromPartName exampleTwo name).2.part_info_to_name,
        e.1 = x → e.2 = old :=
  ⟨exampleTwo_reachable,
    getParts_strictly_ascending exampleFromPartName exampleTwo exampleTwo_reachable⟩

/-! ## Coverage of what was added -/

/-- C17. Every added part stays covered: on a reachable state, after `add` of a
non-empty name that parses and after any further successful adds,
`getContainingPart` of the name returns a non-empty name, the name of an active
entry that contains the identity of the added name. -/
theorem added_part_stays_covered (fromPartName : String → Nat → Option MergeTreePartInfo)
    (self later : ActiveDataPartSet) (name : String) (x : MergeTreePartInfo)
    (h : Reachable fromPartName self) (hn : name ≠ "")
    (hp : fromPartName name self.format_version = some x)
    (hr : Reaches fromPartName (add fromPartName self name).2 later) :
    ∃ r, getContainingPart fromPartName later name = .ok r ∧ r ≠ "" ∧
      ∃ e ∈ later.part_info_to_name, e.2 = r ∧ contains e.1 x := by
  have hok : (add fromPartName self name).1 = .ok () := by
    rw [add_of_parse fromPartName hp]
  have hadd : Reachable fromPartName (add fromPartName self name).2 :=
    Reachable.add self name h hn hok
  have hcov : ∃ e ∈ (add fromPartName self name).2.part_info_to_name, contains e.1 x := by
    rw [add_of_parse fromPartName hp]
    exact covered_addInfo (reachable_inv fromPartName h) x name (Or.inr rfl)
  obtain ⟨e, he, hc⟩ := reaches_covered fromPartName hadd hr hcov
  have hi := reachable_inv fromPartName (reachable_of_reaches fromPartName hadd hr)
  have hv : later.format_version = self.format_version := by
    rw [reaches_format_version fromPartName hr, add_format_version]
  have hne := getContainingPartImpl_complete hi he hc
  obtain ⟨c, hcm, hcx, hname⟩ := getContainingPartImpl_mem hne
  refine ⟨getContainingPartImpl later.part_info_to_name x, ?_, hne, c, hcm, hname.symm, hcx⟩
  simp [getContainingPart, hv, hp]

theorem added_part_stays_covered_witness :
    Reachable exampleFromPartName exampleEmpty ∧ "p_1_1_0" ≠ "" ∧
    exampleFromPartName "p_1_1_0" exampleEmpty.format_version = some ⟨"p", 1, 1, 0, 0⟩ ∧
    Reaches exampleFromPartName (add exampleFromPartName exampleEmpty "p_1_1_0").2
      exampleMerged ∧
    ∃ r, getContainingPart exampleFromPartName exampleMerged "p_1_1_0" = .ok r ∧ r ≠ "" ∧
      ∃ e ∈ exampleMerged.part_info_to_name, e.2 = r ∧ contains e.1 ⟨"p", 1, 1, 0, 0⟩ :=
  ⟨Reachable.empty 0, by decide, rfl,
    Reaches.add _ _ (Reaches.add _ _ Reaches.refl (by decide) rfl) (by decide) rfl,
    added_part_stays_covered exampleFromPartName exampleEmpty exampleMerged "p_1_1_0"
      ⟨"p", 1, 1, 0, 0⟩ (Reachable.empty 0) (by decide) rfl
      (Reaches.add _ _ (Reaches.add _ _ Reaches.refl (by decide) rfl) (by decide) rfl)⟩

end DB
